import Mathlib

/-!
Shallow embedding of the CNF satisfiability checker `sat.py`
(Knowledge Base Satisfiability Checker, Oliver Calder, November 2021).

Data model of the embedding:
* a Python tuple of literals (a clause) is a `List Int`;
* a Python `set` (of clauses, of literals, of pending units) is a `List`
  kept free of duplicates by inserting with `sadd`, which appends a new
  element at the end when it is absent.  Python set iteration order is
  unspecified; this embedding fixes insertion order.  `set.pop()` is
  likewise unspecified; this embedding pops the head of the list.  The
  properties proved below do not depend on this choice;
* a Python `dict` (the `pure` dict of `pure_literal_assign`) is an
  association list in insertion order, where deleting a key filters it
  out and re-inserting appends at the end, exactly dict semantics;
* Python's unbounded `int` is `Int`, and `abs` is `Int.natAbs`;
* a `while` loop whose body both shrinks and extends its work list
  (`unit_propogate`) is written with an explicit fuel parameter; the
  fuel-exhaustion result is `none` and theorem `upLoop_fuel_enough`
  below proves the fuel chosen in `unit_propogate` is never exhausted,
  so the embedding computes precisely the loop's result;
* a function that can return Python `False` ("contradiction"/UNSAT)
  next to a tuple returns an `Option` whose `none` is that `False`;
* `dpll` and everything above it additionally carry an outer `Option`
  layer whose `none` marks "no defined result" (fuel exhaustion of the
  embedded recursion, or the `TypeError` Python would raise when
  `dpll_helper` picks no branching variable because the first clause
  is empty); `dpll_total` proves this marker never occurs.
-/

namespace SatPy

/-- A literal: a signed integer, sign = polarity (`sat.py` reads clauses as
tuples of ints). -/
abbrev Lit := Int

/-- A clause: a Python tuple of literals. -/
abbrev Clause := List Int

/-- A knowledge base: a collection of clauses (Python list / tuple / set;
the solver's internal kbs are sets, modelled as duplicate-free lists). -/
abbrev KB := List Clause

/-- An assignment set ("literals"): a Python set of ints. -/
abbrev Lits := List Int

/-- Python `s.add(x)` on a set modelled as a duplicate-free list: no-op when
present, append when absent. -/
def sadd {α : Type} [DecidableEq α] (s : List α) (x : α) : List α :=
  if x ∈ s then s else s ++ [x]

/-- Line 80-95, `get_max_var_from_kb(kb)`: greatest `abs(var)` over the kb
(0 for an empty kb; the `if clause:` guard in the source is a no-op because
iterating an empty tuple contributes nothing). -/
def get_max_var_from_kb (kb : KB) : Int :=
  kb.foldl (fun m c => c.foldl (fun m v => max m (v.natAbs : Int)) m) 0

/-- Lines 139-143 of `convert_kb_to_3sat`: the `while len(clause) > 2` chain
loop.  State: current `max_var`, the remaining `clause`, the accumulated
`kb_3sat` set.  Each step adds `(-max_var, clause[0], max_var + 1)` and
advances; on exit adds `(-max_var, *clause)`. -/
def splitChain : Int → List Int → KB → KB × Int
  | mv, a :: b :: c :: rest, acc =>
      splitChain (mv + 1) (b :: c :: rest) (sadd acc (-mv :: a :: [mv + 1]))
  | mv, cl, acc => (sadd acc (-mv :: cl), mv)

/-- Lines 132-146, the per-clause body of `convert_kb_to_3sat`: a clause of
length > 3 (i.e. with at least four literals) first emits
`(clause[0], clause[1], max_var + 1)` and then runs the chain loop on
`clause[2:]` with `max_var + 1`; shorter clauses are added unchanged. -/
def convertKbLoop : List Clause → Int → KB → KB
  | [], _, acc => acc
  | c :: rest, mv, acc =>
      match c with
      | c0 :: c1 :: c2 :: c3 :: crest =>
          let r := splitChain (mv + 1) (c2 :: c3 :: crest) (sadd acc (c0 :: c1 :: [mv + 1]))
          convertKbLoop rest r.2 r.1
      | short => convertKbLoop rest mv (sadd acc short)

/-- Lines 115-146, `convert_kb_to_3sat(kb)`. -/
def convert_kb_to_3sat (kb : KB) : KB :=
  convertKbLoop kb (get_max_var_from_kb kb) []

/-- Lines 182-201 of `unit_propogate`, the `for clause in kb` scan for one
popped literal `var`.  Threads the growing `new_kb`, `literals` and `units`
sets; `none` is the `return False` of lines 185, 191 and 195. -/
def upScan (var : Int) : List Clause → KB → Lits → List Int →
    Option (KB × Lits × List Int)
  | [], newKb, lits, units => some (newKb, lits, units)
  | c :: rest, newKb, lits, units =>
      if c = [] then none
      else if var ∈ c then upScan var rest newKb lits units
      else if -var ∈ c then
        let remaining := c.filter (fun v => v ≠ -var)
        match remaining with
        | [] => none
        | [newLit] =>
            if -newLit ∈ lits then none
            else upScan var rest newKb (sadd lits newLit) (sadd units newLit)
        | _ => upScan var rest (sadd newKb remaining) lits units
      else upScan var rest (sadd newKb c) lits units

/-- Lines 178-202 of `unit_propogate`, the `while len(units) > 0` loop, with
fuel.  `none` = fuel exhausted (never happens at the fuel used below, see
`upLoop_fuel_enough`); `some none` = `return False`; `some (some (kb, lits))`
= the `return kb, literals` of line 203. -/
def upLoop : Nat → KB → Lits → List Int → Option (Option (KB × Lits))
  | 0, _, _, _ => none
  | _ + 1, kb, lits, [] => some (some (kb, lits))
  | fuel + 1, kb, lits, var :: units =>
      if -var ∈ lits then some none
      else
        match upScan var kb [] lits units with
        | none => some none
        | some (newKb, lits2, units2) => upLoop fuel newKb lits2 units2

/-- Total literal occurrence count of a kb; `numOcc kb + 2` bounds the
number of iterations of `unit_propogate`'s while loop (each pop removes one
pending unit, and the scan removes at least two occurrences for every unit
it adds), so it is a sufficient fuel. -/
def numOcc (kb : KB) : Nat := (kb.map List.length).sum

/-- Lines 149-203, `unit_propogate(var, kb, literals)`.  Line 174 copies the
caller's `literals`; lines 175-177 seed `units = {var}` and add `var` to the
copy.  `none` is `return False`. -/
def unit_propogate (var : Int) (kb : KB) (lits : Lits) : Option (KB × Lits) :=
  (upLoop (numOcc kb + 2) kb (sadd lits var) [var]).getD none

/-- One step of the literal scan of `pure_literal_assign` (lines 230-239).
State: the `not_pure` set of `abs` values and the `pure` dict as an
association list from literal to its recorded clause set. -/
def plaStep (clause : Clause) (st : List Nat × List (Int × KB)) (var : Int) :
    List Nat × List (Int × KB) :=
  let notPure := st.1
  let pureD := st.2
  if var.natAbs ∈ notPure then st
  else if (pureD.find? (fun p => p.1 = -var)).isSome then
    (sadd notPure var.natAbs, pureD.filter (fun p => p.1 ≠ -var))
  else if (pureD.find? (fun p => p.1 = var)).isSome then
    (notPure, pureD.map (fun p => if p.1 = var then (p.1, sadd p.2 clause) else p))
  else (notPure, pureD ++ [(var, [clause])])

/-- The inner `for var in clause` loop of `pure_literal_assign`. -/
def plaVars (clause : Clause) : List Int → (List Nat × List (Int × KB)) →
    List Nat × List (Int × KB)
  | [], st => st
  | v :: vs, st => plaVars clause vs (plaStep clause st v)

/-- The outer `for clause in kb` loop of `pure_literal_assign`. -/
def plaClauses : List Clause → (List Nat × List (Int × KB)) →
    List Nat × List (Int × KB)
  | [], st => st
  | c :: cs, st => plaClauses cs (plaVars c c st)

/-- Lines 227-239 of `pure_literal_assign`: the complete recording pass,
started from `not_pure = set()` and `pure = {}`. -/
def plaScan (kb : KB) : List Nat × List (Int × KB) := plaClauses kb ([], [])

/-- The `for var in pure: literals.add(var)` additions of lines 241-242. -/
def addKeys : List (Int × KB) → Lits → Lits
  | [], lits => lits
  | p :: ps, lits => addKeys ps (sadd lits p.1)

/-- Lines 206-244, `pure_literal_assign(kb, literals)`.  Lines 240-243 also
compute `new_kb = kb - pure[var] - ...`, but line 244 returns the ORIGINAL
`kb` (`return kb, literals`), so the returned knowledge base is the input
one; see `pla_new_kb` for the discarded value.  The `literals.add(var)`
calls mutate the caller's set in place (no copy is taken); the returned
literals component is that same object. -/
def pure_literal_assign (kb : KB) (lits : Lits) : KB × Lits :=
  (kb, addKeys (plaScan kb).2 lits)

/-- The `new_kb` that lines 240-243 compute and line 244 then fails to
return: the kb minus every clause recorded under a still-pure literal
(`new_kb = new_kb - pure[var]`, set difference). -/
def pla_new_kb (kb : KB) : KB :=
  (plaScan kb).2.foldl (fun nk p => nk.filter (fun c => c ∉ p.2)) kb

/-- Lines 287-292 of `dpll_helper`: `var = None; for clause in kb: for v in
clause: var = v; break; break` — the first literal of the first clause;
`none` when the kb is empty or its first clause is empty (Python leaves
`var = None` and the subsequent `unit_propogate(None, ...)` would raise). -/
def chooseVar (kb : KB) : Option Int :=
  match kb with
  | [] => none
  | c :: _ => c.head?

/-- Lines 247-303, `dpll_helper(kb, literals)`, with fuel for the recursive
search.  Outer `none` = no defined result (fuel exhausted, or no branching
literal found); `some none` = `return False`; `some (some lits)` = SAT.
The fuel `numVars kb + 1` used by `dpll` is sufficient because each
recursive call eliminates the branching variable from the kb
(`dpllHelperLoop_fuel_enough` below). -/
def dpllHelperLoop : Nat → KB → Lits → Option (Option Lits)
  | 0, _, _ => none
  | fuel + 1, kb, lits =>
      let p := pure_literal_assign kb lits
      if p.1 = [] then some (some p.2)
      else
        match chooseVar p.1 with
        | none => none
        | some var =>
            match unit_propogate var p.1 p.2 with
            | some r =>
                match dpllHelperLoop fuel r.1 r.2 with
                | none => none
                | some (some s) => some (some s)
                | some none =>
                    match unit_propogate (-var) p.1 p.2 with
                    | some r2 => dpllHelperLoop fuel r2.1 r2.2
                    | none => some none
            | none =>
                match unit_propogate (-var) p.1 p.2 with
                | some r2 => dpllHelperLoop fuel r2.1 r2.2
                | none => some none

/-- The set of distinct variables (absolute values) of a kb; bounds the
recursion depth of `dpll_helper`. -/
def varsN (kb : KB) : Finset Nat := (kb.flatten.map Int.natAbs).toFinset

/-- Lines 370-379 of `dpll`: the clause classification loop.  `none` is the
`return False` of lines 372 and 376; otherwise returns the non-unit clause
set `new_kb` and the unit literal set `units`. -/
def dpllScan : List Clause → KB → List Int → Option (KB × List Int)
  | [], newKb, units => some (newKb, units)
  | c :: rest, newKb, units =>
      match c with
      | [] => none
      | [v] => if -v ∈ units then none else dpllScan rest newKb (sadd units v)
      | _ => dpllScan rest (sadd newKb c) units

/-- Insertion of an integer into an ascending list (for Python `sorted`). -/
def insertSorted (x : Int) : List Int → List Int
  | [] => [x]
  | y :: ys => if x ≤ y then x :: y :: ys else y :: insertSorted x ys

/-- Python `sorted` on a list of ints: ascending numeric order. -/
def sortInts (l : List Int) : List Int := l.foldr insertSorted []

/-- Lines 381-389 of `dpll`: the `for unit in sorted(units)` propagation
loop.  `none` is the `return False` of lines 385 and 388. -/
def dpllUnits : List Int → KB → Lits → Option (KB × Lits)
  | [], kb, lits => some (kb, lits)
  | u :: rest, kb, lits =>
      if u ∈ lits then dpllUnits rest kb lits
      else if -u ∈ lits then none
      else
        match unit_propogate u kb lits with
        | none => none
        | some r => dpllUnits rest r.1 r.2

/-- Lines 306-392, `dpll(kb)`.  Outer `none` = no defined result (never
occurs: `dpll_total`); `some none` = `return False` (UNSAT); `some (some
lits)` = the satisfying literal set.  The helper fuel is the variable count
plus one, the depth bound of the spec's termination argument. -/
def dpll (kb : List Clause) : Option (Option Lits) :=
  if kb = [] then some (some [])
  else
    match dpllScan kb [] [] with
    | none => some none
    | some (newKb, units) =>
        match dpllUnits (sortInts units) newKb [] with
        | none => some none
        | some (kb2, lits) => dpllHelperLoop ((varsN kb2).card + 1) kb2 lits

/-- Lines 395-405, `kb_satisfiable(kb)`: `True` unless `dpll(kb) == False`
(note `set() == False` is Python-`False`, so an empty returned set is SAT).
`none` = no defined result, never occurs. -/
def kb_satisfiable (kb : List Clause) : Option Bool :=
  match dpll kb with
  | none => none
  | some none => some false
  | some (some _) => some true

/-- Lines 408-425, `add_literal_to_kb(var, kb)`: a new kb consisting of the
unit clause `(var,)` and the original clauses.  Modelled on the set branch
`kb | {(var,)}` (the list and tuple branches append the same unit clause,
possibly duplicated, which no proved property distinguishes). -/
def add_literal_to_kb (var : Int) (kb : List Clause) : List Clause :=
  sadd kb [var]

/-- Lines 428-447, `test_literal(var, kb)`.  Result `some (some false)` =
Python `False` (kb entails `-var`), `some (some true)` = Python `True`
(kb entails `var`), `some none` = Python `None` (unconstrained); outer
`none` = no defined result, never occurs. -/
def test_literal (var : Int) (kb : List Clause) : Option (Option Bool) :=
  match kb_satisfiable (add_literal_to_kb var kb) with
  | none => none
  | some false => some (some false)
  | some true =>
      match kb_satisfiable (add_literal_to_kb (-var) kb) with
      | none => none
      | some false => some (some true)
      | some true => some none

/-! ### The input boundary (lines 15-34, `read_kb_from_fd`)

Each line is stripped, skipped when it starts with `#`, tabs become
spaces, runs of spaces collapse (the `while '  ' in line` loop), and the
space-separated tokens are parsed with `int(x)`.  `none` models the
uncaught exception Python raises on an empty stripped line (`line[0]`,
IndexError) or a non-integer token (`ValueError`).  There is no check of
any kind on the parsed integers. -/

/-- Whitespace for Python `str.strip` (the characters that occur in this
program's inputs). -/
def isPySpace (c : Char) : Bool := c = ' ' ∨ c = '\t' ∨ c = '\n' ∨ c = '\r'

/-- Python `str.strip()`. -/
def pyStrip (l : List Char) : List Char :=
  ((l.dropWhile isPySpace).reverse.dropWhile isPySpace).reverse

/-- The fixpoint of `line.replace('  ', ' ')` (the `while '  ' in line`
loop of lines 31-32): runs of spaces collapse to one space. -/
def collapseSpaces : List Char → List Char
  | [] => []
  | [c] => [c]
  | c :: d :: rest =>
      if c = ' ' ∧ d = ' ' then collapseSpaces (d :: rest)
      else c :: collapseSpaces (d :: rest)

/-- Python `line.split(' ')` with an explicit separator. -/
def splitOnSpace : List Char → List (List Char)
  | [] => [[]]
  | c :: rest =>
      if c = ' ' then [] :: splitOnSpace rest
      else
        match splitOnSpace rest with
        | t :: ts => (c :: t) :: ts
        | [] => [[c]]

/-- Digits of a decimal numeral. -/
def parseDigits : List Char → Option Nat
  | [] => none
  | l => l.foldl (fun acc c =>
      match acc with
      | none => none
      | some n => if '0' ≤ c ∧ c ≤ '9' then some (n * 10 + (c.toNat - '0'.toNat)) else none)
      (some 0)

/-- Python `int(x)` on a token: optional sign then digits (Python's further
liberties — underscores, unicode digits — do not matter to any claim). -/
def parseInt : List Char → Option Int
  | '-' :: rest => (parseDigits rest).map (fun n => -(n : Int))
  | '+' :: rest => (parseDigits rest).map (fun n => (n : Int))
  | l => (parseDigits l).map (fun n => (n : Int))

/-- Lines 27-33 for a single line.  `none` = exception; `some none` =
comment line, skipped; `some (some clause)` = parsed clause. -/
def parseLine (line : List Char) : Option (Option Clause) :=
  let l := pyStrip line
  match l with
  | [] => none
  | c :: _ =>
      if c = '#' then some none
      else
        let toks := splitOnSpace (pyStrip (collapseSpaces
          (l.map (fun ch => if ch = '\t' then ' ' else ch))))
        (toks.mapM parseInt).map some

/-- The `for line in fd` loop over all lines. -/
def readLines : List (List Char) → Option (List Clause)
  | [] => some []
  | line :: rest =>
      match parseLine line with
      | none => none
      | some none => readLines rest
      | some (some c) => (readLines rest).map (fun kb => c :: kb)

/-- Lines 15-34, `read_kb_from_fd(fd)` over the lines of the input. -/
def read_kb_from_fd (lines : List String) : Option (List Clause) :=
  readLines (lines.map String.toList)

/-! ### Argument-mutation footprints (for the purity claim)

Python passes the kb and literals sets by reference; an operation is pure
in the spec's sense only if the objects the caller passed in hold the same
elements after the call.  The definitions below record, from the source,
the final contents of each passed-in object. -/

/-- After `unit_propogate` the caller's `literals` set is unchanged: line
174 rebinds the local name to `literals.copy()` before any `add`, and `kb`
is only rebound (line 202), never mutated. -/
def unit_propogate_litsArgAfter (_ : Int) (_ : KB) (lits : Lits) : Lits := lits

/-- After `unit_propogate` the caller's kb object is unchanged. -/
def unit_propogate_kbArgAfter (_ : Int) (kb : KB) (_ : Lits) : KB := kb

/-- After `pure_literal_assign` the caller's `literals` set holds its old
elements plus every pure literal: line 242 `literals.add(var)` mutates the
argument object in place (no copy is taken). -/
def pure_literal_assign_litsArgAfter (kb : KB) (lits : Lits) : Lits :=
  addKeys (plaScan kb).2 lits

/-- After `pure_literal_assign` the caller's kb object is unchanged (line
243 builds new sets with `-`; nothing mutates the argument). -/
def pure_literal_assign_kbArgAfter (kb : KB) (_ : Lits) : KB := kb

/-- After `dpll_helper` the caller's `literals` object has been extended in
place with the pure literals of the kb, because line 282 passes the
caller's object straight to `pure_literal_assign`; every later callee
receives fresh objects. -/
def dpll_helper_litsArgAfter (kb : KB) (lits : Lits) : Lits :=
  addKeys (plaScan kb).2 lits

/-- After `dpll_helper` the caller's kb object is unchanged. -/
def dpll_helper_kbArgAfter (kb : KB) (_ : Lits) : KB := kb

/-- After `dpll` the caller's kb is unchanged (the function only iterates
it and builds fresh sets). -/
def dpll_kbArgAfter (kb : List Clause) : List Clause := kb

/-- After `convert_kb_to_3sat` the caller's kb is unchanged. -/
def convert_kb_to_3sat_kbArgAfter (kb : List Clause) : List Clause := kb

/-- After `add_literal_to_kb` the caller's kb is unchanged (every branch
builds a new collection). -/
def add_literal_to_kb_kbArgAfter (_ : Int) (kb : List Clause) : List Clause := kb

/-- After `test_literal` the caller's kb is unchanged (it is only read, via
`add_literal_to_kb` and `dpll`). -/
def test_literal_kbArgAfter (_ : Int) (kb : List Clause) : List Clause := kb

/-! ### Semantics

An assignment gives every positive variable a truth value; a negative
literal is satisfied when its variable is false.  These definitions are the
semantic yardstick for the equisatisfiability and soundness claims. -/

/-- Truth of a literal under an assignment of the (positive) variables. -/
def satLit (a : Int → Bool) (l : Int) : Bool :=
  if 0 < l then a l else !(a (-l))

/-- A clause is satisfied when some literal of it is. -/
def SatClause (a : Int → Bool) (c : Clause) : Prop := ∃ l ∈ c, satLit a l = true

/-- A kb is satisfied when every clause of it is. -/
def SatKB (a : Int → Bool) (kb : List Clause) : Prop := ∀ c ∈ kb, SatClause a c

/-- Semantic satisfiability of a kb. -/
def Satisfiable (kb : List Clause) : Prop := ∃ a, SatKB a kb

/-- An assignment set is consistent when it never holds a literal and its
negation. -/
def Consistent (lits : Lits) : Prop := ∀ x ∈ lits, -x ∉ lits

/-- A kb is zero-free when the literal 0 (which the spec's data model
excludes: a literal is a nonzero signed integer) occurs in no clause. -/
def ZeroFreeKB (kb : List Clause) : Prop := ∀ l ∈ kb.flatten, l ≠ 0

end SatPy

namespace SatPy

/-! ### Basic lemmas about the set model -/

theorem mem_sadd {α : Type} [DecidableEq α] {s : List α} {x y : α} :
    y ∈ sadd s x ↔ y ∈ s ∨ y = x := by
  unfold sadd
  by_cases h : x ∈ s
  · simp only [if_pos h]
    constructor
    · exact Or.inl
    · rintro (hy | rfl) <;> [exact hy; exact h]
  · simp [if_neg h]

theorem subset_sadd {α : Type} [DecidableEq α] (s : List α) (x : α) :
    ∀ y ∈ s, y ∈ sadd s x := fun y hy => mem_sadd.mpr (Or.inl hy)

theorem self_mem_sadd {α : Type} [DecidableEq α] (s : List α) (x : α) :
    x ∈ sadd s x := mem_sadd.mpr (Or.inr rfl)

theorem sadd_length_le {α : Type} [DecidableEq α] (s : List α) (x : α) :
    (sadd s x).length ≤ s.length + 1 := by
  unfold sadd
  by_cases h : x ∈ s
  · simp [if_pos h]
  · simp [if_neg h]

theorem sadd_eq_append {α : Type} [DecidableEq α] {s : List α} {x : α} (h : x ∉ s) :
    sadd s x = s ++ [x] := if_neg h

theorem mem_flatten_of_mem {c : Clause} {kb : KB} {l : Int}
    (hc : c ∈ kb) (hl : l ∈ c) : l ∈ kb.flatten :=
  List.mem_flatten.mpr ⟨c, hc, hl⟩

end SatPy

namespace SatPy

/-- Claim C3 (code bug): at `kb = {(1, 2)}`, `literals = {}`, both literals
are pure, yet `pure_literal_assign` hands back the ORIGINAL kb — the clause
`(1, 2)` is still there — because line 244 returns `kb` instead of the
`new_kb` that lines 240-243 computed (which is empty, as `pla_new_kb`
shows).  The claim's removal of pure-literal clauses never happens. -/
theorem C3_pure_literal_assign_keeps_kb :
    pure_literal_assign [[1, 2]] [] = ([[1, 2]], [1, 2]) ∧
      pla_new_kb [[1, 2]] = [] := by
  constructor <;> rfl

/-- Claim C5 (counterexample): `pure_literal_assign` does NOT leave the
caller's assignment set unchanged: called with `kb = {(1, 2)}` and an empty
set, the caller's set-object afterwards holds `{1, 2}` (line 242
`literals.add(var)` mutates the argument in place). -/
theorem C5_pure_literal_assign_mutates_caller :
    pure_literal_assign_litsArgAfter [[1, 2]] [] ≠ [] := by
  decide

/-- Claim C5 (amended): every listed core operation leaves the caller's
knowledge-base object unchanged, and all of them except
`pure_literal_assign` and `dpll_helper` also leave the caller's assignment
set unchanged; those two extend the caller's assignment-set object in place
with the kb's pure literals — the literals component they return is that
same mutated object. -/
theorem C5_argument_mutation_footprints :
    (∀ (var : Int) (kb : KB) (lits : Lits),
        unit_propogate_kbArgAfter var kb lits = kb ∧
        unit_propogate_litsArgAfter var kb lits = lits) ∧
    (∀ (kb : KB) (lits : Lits),
        pure_literal_assign_kbArgAfter kb lits = kb ∧
        pure_literal_assign_litsArgAfter kb lits = (pure_literal_assign kb lits).2) ∧
    (∀ (kb : KB) (lits : Lits),
        dpll_helper_kbArgAfter kb lits = kb ∧
        dpll_helper_litsArgAfter kb lits = (pure_literal_assign kb lits).2) ∧
    (∀ kb : List Clause, dpll_kbArgAfter kb = kb) ∧
    (∀ kb : List Clause, convert_kb_to_3sat_kbArgAfter kb = kb) ∧
    (∀ (var : Int) (kb : List Clause), add_literal_to_kb_kbArgAfter var kb = kb) ∧
    (∀ (var : Int) (kb : List Clause), test_literal_kbArgAfter var kb = kb) := by
  refine ⟨fun _ _ _ => ⟨rfl, rfl⟩, fun _ _ => ⟨rfl, rfl⟩, fun _ _ => ⟨rfl, rfl⟩,
    fun _ => rfl, fun _ => rfl, fun _ _ => rfl, fun _ _ => rfl⟩

/-- Claim C10 (code bug): nothing rejects the literal 0 at the boundary.
`read_kb_from_fd` parses a line `0` into the clause `(0,)` and a line
`0 5` into `(0, 5)` without any validation, and the core then processes
them: `kb_satisfiable({(0,)})` runs to UNSAT (0 acts as its own negation
inside `unit_propogate`), and `test_literal(0, {(1,)})` runs to Python
`False` ("forced false") instead of any boundary error. -/
theorem C10_zero_literal_reaches_core :
    read_kb_from_fd ["0"] = some [[0]] ∧
      read_kb_from_fd ["0 5", "1 -2"] = some [[0, 5], [1, -2]] ∧
      kb_satisfiable [[0]] = some false ∧
      test_literal 0 [[1]] = some (some false) := by
  refine ⟨rfl, rfl, rfl, rfl⟩

end SatPy

namespace SatPy

/-! ### The chain loop of the 3-SAT transform, described clause by clause -/

/-- The clauses `splitChain mv cl` emits, in emission order: one
`(-max_var, clause[0], max_var + 1)` per loop iteration and the final
`(-max_var, *clause)`. -/
def chainClauses : Int → List Int → List Clause
  | mv, a :: b :: c :: rest => (-mv :: a :: [mv + 1]) :: chainClauses (mv + 1) (b :: c :: rest)
  | mv, cl => [-mv :: cl]

/-- Folding `sadd` over a list of new clauses. -/
def saddAll (acc : KB) : List Clause → KB
  | [] => acc
  | c :: cs => saddAll (sadd acc c) cs

theorem mem_saddAll : ∀ (l : List Clause) (acc : KB) (d : Clause),
    d ∈ saddAll acc l ↔ d ∈ acc ∨ d ∈ l := by
  intro l
  induction l with
  | nil => intro acc d; simp [saddAll]
  | cons c cs ih =>
      intro acc d
      rw [show saddAll acc (c :: cs) = saddAll (sadd acc c) cs from rfl, ih, mem_sadd]
      constructor
      · rintro ((h | h) | h)
        · exact Or.inl h
        · exact Or.inr (by rw [h]; exact List.mem_cons_self c cs)
        · exact Or.inr (List.mem_cons_of_mem c h)
      · rintro (h | h)
        · exact Or.inl (Or.inl h)
        · rcases List.mem_cons.mp h with rfl | h
          · exact Or.inl (Or.inr rfl)
          · exact Or.inr h

theorem saddAll_eq_append : ∀ (l : List Clause) (acc : KB),
    (∀ c ∈ l, c ∉ acc) → l.Nodup → saddAll acc l = acc ++ l := by
  intro l
  induction l with
  | nil => intro acc _ _; simp [saddAll]
  | cons c cs ih =>
      intro acc hdis hnd
      rw [show saddAll acc (c :: cs) = saddAll (sadd acc c) cs from rfl,
        sadd_eq_append (hdis c (List.mem_cons_self c cs)),
        ih (acc ++ [c]) ?_ (List.Nodup.of_cons hnd)]
      · simp
      · intro d hd hmem
        rcases List.mem_append.mp hmem with h | h
        · exact hdis d (List.mem_cons_of_mem c hd) h
        · rcases List.mem_singleton.mp h with rfl
          exact (List.nodup_cons.mp hnd).1 hd

theorem splitChain_eq : ∀ (cl : List Int) (mv : Int) (acc : KB), 2 ≤ cl.length →
    splitChain mv cl acc =
      (saddAll acc (chainClauses mv cl), mv + (cl.length : Int) - 2) := by
  intro cl
  induction cl with
  | nil => intro mv acc h; simp at h
  | cons a tail ih =>
      intro mv acc h
      match tail with
      | [] => simp at h
      | [b] =>
          rw [show splitChain mv [a, b] acc = (sadd acc (-mv :: [a, b]), mv) from rfl,
            show chainClauses mv [a, b] = [-mv :: [a, b]] from rfl,
            show saddAll acc [-mv :: [a, b]] = sadd acc (-mv :: [a, b]) from rfl]
          rw [Prod.mk.injEq]
          refine ⟨rfl, ?_⟩
          simp
      | b :: c :: rest =>
          rw [show splitChain mv (a :: b :: c :: rest) acc
              = splitChain (mv + 1) (b :: c :: rest) (sadd acc (-mv :: a :: [mv + 1])) from rfl,
            ih (mv + 1) _ (by simp),
            show chainClauses mv (a :: b :: c :: rest)
              = (-mv :: a :: [mv + 1]) :: chainClauses (mv + 1) (b :: c :: rest) from rfl,
            show saddAll acc ((-mv :: a :: [mv + 1]) :: chainClauses (mv + 1) (b :: c :: rest))
              = saddAll (sadd acc (-mv :: a :: [mv + 1])) (chainClauses (mv + 1) (b :: c :: rest))
              from rfl]
          rw [Prod.mk.injEq]
          refine ⟨rfl, ?_⟩
          simp only [List.length_cons]
          push_cast
          ring

theorem chainClauses_length : ∀ (cl : List Int) (mv : Int), 2 ≤ cl.length →
    (chainClauses mv cl).length = cl.length - 1 := by
  intro cl
  induction cl with
  | nil => intro mv h; simp at h
  | cons a tail ih =>
      intro mv h
      match tail with
      | [] => simp at h
      | [b] => rfl
      | b :: c :: rest =>
          rw [show chainClauses mv (a :: b :: c :: rest)
              = (-mv :: a :: [mv + 1]) :: chainClauses (mv + 1) (b :: c :: rest) from rfl]
          rw [List.length_cons, ih (mv + 1) (by simp)]
          simp only [List.length_cons]
          omega

theorem chainClauses_clause_len : ∀ (cl : List Int) (mv : Int), 2 ≤ cl.length →
    ∀ d ∈ chainClauses mv cl, d.length = 3 := by
  intro cl
  induction cl with
  | nil => intro mv h; simp at h
  | cons a tail ih =>
      intro mv h d hd
      match tail with
      | [] => simp at h
      | [b] =>
          rcases List.mem_singleton.mp hd with rfl
          rfl
      | b :: c :: rest =>
          rw [show chainClauses mv (a :: b :: c :: rest)
              = (-mv :: a :: [mv + 1]) :: chainClauses (mv + 1) (b :: c :: rest) from rfl] at hd
          rcases List.mem_cons.mp hd with rfl | hd
          · rfl
          · exact ih (mv + 1) (by simp) d hd

theorem chainClauses_heads : ∀ (cl : List Int) (mv : Int), 2 ≤ cl.length →
    (chainClauses mv cl).map List.head?
      = (List.range (cl.length - 1)).map (fun (j : Nat) => some (-(mv + (j : Int)))) := by
  intro cl
  induction cl with
  | nil => intro mv h; simp at h
  | cons a tail ih =>
      intro mv h
      match tail with
      | [] => simp at h
      | [b] =>
          rw [show chainClauses mv [a, b] = [-mv :: [a, b]] from rfl,
            show [a, b].length - 1 = 1 from rfl,
            show List.range 1 = [0] from rfl]
          simp
      | b :: c :: rest =>
          rw [show chainClauses mv (a :: b :: c :: rest)
              = (-mv :: a :: [mv + 1]) :: chainClauses (mv + 1) (b :: c :: rest) from rfl]
          rw [List.map_cons, ih (mv + 1) (by simp)]
          have hlen : (a :: b :: c :: rest).length - 1 = ((b :: c :: rest).length - 1) + 1 := by
            simp
          rw [hlen, List.range_succ_eq_map, List.map_cons, List.map_map]
          refine List.cons_eq_cons.mpr ⟨by simp, ?_⟩
          apply List.map_congr_left
          intro j _
          simp only [Function.comp_apply, Option.some.injEq, neg_inj]
          push_cast
          ring

theorem chainClauses_nodup : ∀ (cl : List Int) (mv : Int), 2 ≤ cl.length →
    (chainClauses mv cl).Nodup := by
  intro cl mv h
  apply List.Nodup.of_map List.head?
  rw [chainClauses_heads cl mv h]
  apply List.Nodup.map
  · intro i j hij
    simp only [Option.some.injEq, neg_inj, add_right_inj] at hij
    exact_mod_cast hij
  · exact List.nodup_range _

theorem chainClauses_head_shape : ∀ (cl : List Int) (mv : Int), 2 ≤ cl.length →
    ∀ d ∈ chainClauses mv cl, ∃ j : Nat, j ≤ cl.length - 2 ∧
      d.head? = some (-(mv + (j : Int))) := by
  intro cl mv h d hd
  have hmem : d.head? ∈ (chainClauses mv cl).map List.head? := List.mem_map_of_mem _ hd
  rw [chainClauses_heads cl mv h] at hmem
  rcases List.mem_map.mp hmem with ⟨j, hj, hhead⟩
  exact ⟨j, by have := List.mem_range.mp hj; omega, hhead.symm⟩

theorem chainClauses_lits_sub : ∀ (cl : List Int) (mv : Int), 2 ≤ cl.length →
    ∀ l ∈ (chainClauses mv cl).flatten, l ∈ cl ∨
      ∃ j : Nat, j ≤ cl.length - 2 ∧
        (l = -(mv + (j : Int)) ∨ (l = mv + (j : Int) ∧ 1 ≤ j)) := by
  intro cl
  induction cl with
  | nil => intro mv h; simp at h
  | cons a tail ih =>
      intro mv h l hl
      match tail with
      | [] => simp at h
      | [b] =>
          rw [show chainClauses mv [a, b] = [-mv :: [a, b]] from rfl] at hl
          simp only [List.flatten, List.append_nil] at hl
          rcases List.mem_cons.mp hl with rfl | hl
          · exact Or.inr ⟨0, by simp, Or.inl (by simp)⟩
          rcases List.mem_cons.mp hl with rfl | hl
          · exact Or.inl (List.mem_cons_self _ _)
          rcases List.mem_singleton.mp hl with rfl
          · exact Or.inl (by simp)
      | b :: c :: rest =>
          rw [show chainClauses mv (a :: b :: c :: rest)
              = (-mv :: a :: [mv + 1]) :: chainClauses (mv + 1) (b :: c :: rest) from rfl] at hl
          rw [List.flatten_cons, List.mem_append] at hl
          rcases hl with h1 | h1
          · rcases List.mem_cons.mp h1 with rfl | h1
            · exact Or.inr ⟨0, by simp, Or.inl (by simp)⟩
            rcases List.mem_cons.mp h1 with rfl | h1
            · exact Or.inl (List.mem_cons_self _ _)
            rcases List.mem_singleton.mp h1 with rfl
            refine Or.inr ⟨1, ?_, Or.inr ⟨by push_cast; ring, le_refl 1⟩⟩
            simp only [List.length_cons]
            omega
          · rcases ih (mv + 1) (by simp) l h1 with h2 | ⟨j, hj, h2⟩
            · exact Or.inl (List.mem_cons_of_mem a h2)
            · refine Or.inr ⟨j + 1, ?_, ?_⟩
              · simp only [List.length_cons] at hj ⊢
                omega
              rcases h2 with h2 | ⟨h2, _⟩
              · exact Or.inl (by rw [h2]; congr 1; push_cast; ring)
              · exact Or.inr ⟨by rw [h2]; push_cast; ring, by omega⟩

theorem chainClauses_lits_sup : ∀ (cl : List Int) (mv : Int), 2 ≤ cl.length →
    ∀ y ∈ cl, y ∈ (chainClauses mv cl).flatten := by
  intro cl
  induction cl with
  | nil => intro mv h; simp at h
  | cons a tail ih =>
      intro mv h y hy
      match tail with
      | [] => simp at h
      | [b] =>
          rw [show chainClauses mv [a, b] = [-mv :: [a, b]] from rfl]
          simp only [List.flatten, List.append_nil]
          rcases List.mem_cons.mp hy with rfl | hy
          · simp
          · rcases List.mem_singleton.mp hy with rfl; simp
      | b :: c :: rest =>
          rw [show chainClauses mv (a :: b :: c :: rest)
              = (-mv :: a :: [mv + 1]) :: chainClauses (mv + 1) (b :: c :: rest) from rfl,
            List.flatten_cons, List.mem_append]
          rcases List.mem_cons.mp hy with rfl | hy
          · exact Or.inl (by simp)
          · exact Or.inr (ih (mv + 1) (by simp) y hy)

theorem chainClauses_negaux_mem : ∀ (cl : List Int) (mv : Int), 2 ≤ cl.length →
    ∀ j : Nat, j ≤ cl.length - 2 → -(mv + (j : Int)) ∈ (chainClauses mv cl).flatten := by
  intro cl
  induction cl with
  | nil => intro mv h; simp at h
  | cons a tail ih =>
      intro mv h j hj
      match tail with
      | [] => simp at h
      | [b] =>
          have hj0 : j = 0 := by simp at hj; omega
          subst hj0
          rw [show chainClauses mv [a, b] = [-mv :: [a, b]] from rfl]
          simp
      | b :: c :: rest =>
          rw [show chainClauses mv (a :: b :: c :: rest)
              = (-mv :: a :: [mv + 1]) :: chainClauses (mv + 1) (b :: c :: rest) from rfl,
            List.flatten_cons, List.mem_append]
          match j with
          | 0 => exact Or.inl (by simp)
          | j + 1 =>
              refine Or.inr ?_
              have hrec := ih (mv + 1) (by simp) j
                (by simp only [List.length_cons] at hj ⊢; omega)
              convert hrec using 2
              push_cast
              ring

end SatPy

namespace SatPy

/-! ### Bounds from `get_max_var_from_kb` -/

/-- The inner fold of `get_max_var_from_kb` over one clause. -/
def clMax (m : Int) (c : Clause) : Int := c.foldl (fun m v => max m (v.natAbs : Int)) m

theorem get_max_eq_foldl (kb : KB) : get_max_var_from_kb kb = kb.foldl clMax 0 := rfl

theorem le_clMax (c : Clause) : ∀ m : Int, m ≤ clMax m c := by
  induction c with
  | nil => intro m; exact le_refl m
  | cons v vs ih =>
      intro m
      exact le_trans (le_max_left m (v.natAbs : Int)) (ih (max m (v.natAbs : Int)))

theorem clMax_of_mem {c : Clause} {v : Int} (hv : v ∈ c) :
    ∀ m : Int, (v.natAbs : Int) ≤ clMax m c := by
  induction c with
  | nil => cases hv
  | cons w ws ih =>
      intro m
      rcases List.mem_cons.mp hv with rfl | hv
      · exact le_trans (le_max_right m (v.natAbs : Int)) (le_clMax ws _)
      · exact ih hv _

theorem le_foldl_clMax (kb : KB) : ∀ m : Int, m ≤ kb.foldl clMax m := by
  induction kb with
  | nil => intro m; exact le_refl m
  | cons c cs ih => intro m; exact le_trans (le_clMax c m) (ih (clMax m c))

theorem get_max_nonneg (kb : KB) : 0 ≤ get_max_var_from_kb kb := by
  rw [get_max_eq_foldl]; exact le_foldl_clMax kb 0

theorem get_max_bound {kb : KB} {c : Clause} {v : Int} (hc : c ∈ kb) (hv : v ∈ c) :
    (v.natAbs : Int) ≤ get_max_var_from_kb kb := by
  rw [get_max_eq_foldl]
  revert hc
  suffices h : ∀ m : Int, c ∈ kb → (v.natAbs : Int) ≤ kb.foldl clMax m by
    exact h 0
  induction kb with
  | nil => intro m h; cases h
  | cons d ds ih =>
      intro m h
      rcases List.mem_cons.mp h with rfl | h
      · exact le_trans (clMax_of_mem hv m) (le_foldl_clMax ds _)
      · exact ih _ h

theorem mem_varsN {kb : KB} {a : Nat} :
    a ∈ varsN kb ↔ ∃ l ∈ kb.flatten, l.natAbs = a := by
  simp only [varsN, List.mem_toFinset, List.mem_map, List.mem_flatten]

theorem sadd_nil {α : Type} [DecidableEq α] (x : α) : sadd ([] : List α) x = [x] := by
  simp [sadd]

/-- Claim C8: a single clause of arity k > 3 converts to exactly k−2
clauses, each of length at most 3 (in fact exactly 3), and the transform
introduces exactly the k−3 auxiliary variables `max+1, ..., max+k−3`, all
strictly greater than the kb's prior maximum variable id. -/
theorem C8_single_clause_arity (c : Clause) (hk : 3 < c.length) :
    (convert_kb_to_3sat [c]).length = c.length - 2 ∧
    (∀ d ∈ convert_kb_to_3sat [c], d.length ≤ 3) ∧
    varsN (convert_kb_to_3sat [c]) \ varsN [c]
      = (Finset.range (c.length - 3)).image
          (fun (j : Nat) => (get_max_var_from_kb [c] + 1 + (j : Int)).natAbs) ∧
    (varsN (convert_kb_to_3sat [c]) \ varsN [c]).card = c.length - 3 ∧
    (∀ a ∈ varsN (convert_kb_to_3sat [c]) \ varsN [c],
      get_max_var_from_kb [c] < (a : Int)) := by
  match c, hk with
  | c0 :: c1 :: c2 :: c3 :: crest, hk =>
    set M := get_max_var_from_kb [c0 :: c1 :: c2 :: c3 :: crest] with hM
    have hMnn : 0 ≤ M := get_max_nonneg _
    have htail : 2 ≤ (c2 :: c3 :: crest).length := by simp
    have hbound : ∀ v ∈ c0 :: c1 :: c2 :: c3 :: crest, (v.natAbs : Int) ≤ M :=
      fun v hv => get_max_bound (List.mem_singleton.mpr rfl) hv
    -- the output is the first emitted clause followed by the chain clauses
    have hout : convert_kb_to_3sat [c0 :: c1 :: c2 :: c3 :: crest]
        = (c0 :: c1 :: [M + 1]) :: chainClauses (M + 1) (c2 :: c3 :: crest) := by
      have h1 : convert_kb_to_3sat [c0 :: c1 :: c2 :: c3 :: crest]
          = (splitChain (M + 1) (c2 :: c3 :: crest) (sadd [] (c0 :: c1 :: [M + 1]))).1 := rfl
      rw [h1, splitChain_eq (c2 :: c3 :: crest) (M + 1) _ htail, sadd_nil]
      have hdisj : ∀ d ∈ chainClauses (M + 1) (c2 :: c3 :: crest), d ∉ [c0 :: c1 :: [M + 1]] := by
        intro d hd hmem
        rcases List.mem_singleton.mp hmem with rfl
        rcases chainClauses_head_shape (c2 :: c3 :: crest) (M + 1) htail _ hd with ⟨j, _, hhead⟩
        have : c0 = -(M + 1 + (j : Int)) := by
          simpa using hhead
        have hc0 : (c0.natAbs : Int) ≤ M := hbound c0 (by simp)
        rw [this] at hc0
        rw [Int.natAbs_neg] at hc0
        rw [Int.natAbs_of_nonneg (by omega)] at hc0
        omega
      exact saddAll_eq_append _ _ hdisj (chainClauses_nodup (c2 :: c3 :: crest) (M + 1) htail)
    have hlen_tail : (c2 :: c3 :: crest).length = (c0 :: c1 :: c2 :: c3 :: crest).length - 2 := by
      simp
    have habs : ∀ j : Nat, ((M + 1 + (j : Int)).natAbs : Int) = M + 1 + (j : Int) :=
      fun j => Int.natAbs_of_nonneg (by omega)
    -- the difference of variable sets is exactly the auxiliary block
    have hvars : varsN (convert_kb_to_3sat [c0 :: c1 :: c2 :: c3 :: crest])
        \ varsN [c0 :: c1 :: c2 :: c3 :: crest]
        = (Finset.range ((c0 :: c1 :: c2 :: c3 :: crest).length - 3)).image
            (fun (j : Nat) => (M + 1 + (j : Int)).natAbs) := by
      ext a
      simp only [Finset.mem_sdiff, Finset.mem_image, Finset.mem_range]
      constructor
      · rintro ⟨ha, hna⟩
        rcases mem_varsN.mp ha with ⟨l, hl, rfl⟩
        rw [hout] at hl
        rw [List.flatten_cons, List.mem_append] at hl
        rcases hl with hl | hl
        · rcases List.mem_cons.mp hl with rfl | hl
          · exact absurd (mem_varsN.mpr ⟨l, by simp, rfl⟩) hna
          rcases List.mem_cons.mp hl with rfl | hl
          · exact absurd (mem_varsN.mpr ⟨l, by simp, rfl⟩) hna
          rcases List.mem_singleton.mp hl with rfl
          exact ⟨0, by simp only [List.length_cons]; omega, by simp⟩
        · rcases chainClauses_lits_sub (c2 :: c3 :: crest) (M + 1) htail l hl with hmem | ⟨j, hj, hcase⟩
          · refine absurd (mem_varsN.mpr ⟨l, ?_, rfl⟩) hna
            simp only [List.flatten_cons, List.flatten_nil, List.append_nil]
            exact List.mem_cons_of_mem c0 (List.mem_cons_of_mem c1 hmem)
          · have hj2 : j < (c0 :: c1 :: c2 :: c3 :: crest).length - 3 := by
              rw [hlen_tail] at hj
              simp only [List.length_cons] at hj ⊢
              omega
            rcases hcase with rfl | ⟨rfl, _⟩
            · exact ⟨j, hj2, by rw [Int.natAbs_neg]⟩
            · exact ⟨j, hj2, rfl⟩
      · rintro ⟨j, hj, rfl⟩
        constructor
        · apply mem_varsN.mpr
          refine ⟨-(M + 1 + (j : Int)), ?_, by rw [Int.natAbs_neg]⟩
          rw [hout, List.flatten_cons, List.mem_append]
          refine Or.inr ?_
          exact chainClauses_negaux_mem (c2 :: c3 :: crest) (M + 1) htail j
            (by rw [hlen_tail]; simp only [List.length_cons] at hj ⊢; omega)
        · intro hmem
          rcases mem_varsN.mp hmem with ⟨l, hl, heq⟩
          have h1 : (l.natAbs : Int) ≤ M := by
            apply get_max_bound (List.mem_singleton.mpr rfl)
            simpa using hl
          rw [heq, habs j] at h1
          omega
    refine ⟨?_, ?_, hvars, ?_, ?_⟩
    · rw [hout, List.length_cons, chainClauses_length (c2 :: c3 :: crest) (M + 1) htail, hlen_tail]
      simp only [List.length_cons]
      omega
    · intro d hd
      rw [hout] at hd
      rcases List.mem_cons.mp hd with rfl | hd
      · simp
      · rw [chainClauses_clause_len (c2 :: c3 :: crest) (M + 1) htail d hd]
    · rw [hvars]
      have hinj : Set.InjOn (fun (j : Nat) => (M + 1 + (j : Int)).natAbs)
          (Finset.range ((c0 :: c1 :: c2 :: c3 :: crest).length - 3)) := by
        intro i _ j _ hij
        simp only at hij
        have h2 : ((M + 1 + (i : Int)).natAbs : Int) = ((M + 1 + (j : Int)).natAbs : Int) := by
          rw [hij]
        rw [habs i, habs j] at h2
        omega
      rw [Finset.card_image_of_injOn hinj, Finset.card_range]
    · intro a ha
      rw [hvars] at ha
      rcases Finset.mem_image.mp ha with ⟨j, _, rfl⟩
      rw [habs j]
      omega

/-- Witness for C8 at the concrete clause `(1, 2, 3, 4)`: it becomes the two
clauses `(1, 2, 5)` and `(-5, 3, 4)` with the single fresh variable 5. -/
theorem C8_single_clause_arity_witness :
    (convert_kb_to_3sat [[1, 2, 3, 4]]).length = 2 ∧
      (varsN (convert_kb_to_3sat [[1, 2, 3, 4]]) \ varsN [[1, 2, 3, 4]]).card = 1 := by
  refine ⟨?_, ?_⟩
  · have h := (C8_single_clause_arity [1, 2, 3, 4] (by decide)).1
    simpa using h
  · have h := (C8_single_clause_arity [1, 2, 3, 4] (by decide)).2.2.2.1
    simpa using h

end SatPy

namespace SatPy

/-! ### The scan of `unit_propogate` (lines 182-201): structural facts -/

theorem numOcc_cons (c : Clause) (kb : KB) :
    numOcc (c :: kb) = c.length + numOcc kb := by
  simp [numOcc]

theorem numOcc_sadd_le (kb : KB) (c : Clause) :
    numOcc (sadd kb c) ≤ numOcc kb + c.length := by
  unfold sadd
  by_cases h : c ∈ kb
  · simp [if_pos h]
  · simp [if_neg h, numOcc]

theorem mem_filter_ne {c : Clause} {v x : Int} :
    x ∈ c.filter (fun v2 => v2 ≠ v) ↔ x ∈ c ∧ x ≠ v := by
  simp [List.mem_filter]

/-- Structural description of one scan: the output kb extends the
accumulator with clauses derived from the scanned list (each a nonempty
subset of an input clause with both polarities of the popped literal
removed, unchanged or of length at least 2); the literal and unit sets only
grow, all new literals are also new units, and all new units are also new
literals. -/
theorem upScan_shape : ∀ (rest : List Clause) (var : Int) (acc : KB) (lits : Lits)
    (units : List Int) (kbO : KB) (litsO : Lits) (unitsO : List Int),
    upScan var rest acc lits units = some (kbO, litsO, unitsO) →
    ((∀ d ∈ acc, d ∈ kbO) ∧
     (∀ d ∈ kbO, d ∈ acc ∨ ∃ c ∈ rest,
        ((∀ x ∈ d, x ∈ c) ∧ var ∉ d ∧ -var ∉ d ∧ d ≠ [] ∧ (d = c ∨ 2 ≤ d.length))) ∧
     (∀ L ∈ lits, L ∈ litsO) ∧
     (∀ L ∈ litsO, L ∈ lits ∨ (L ∈ unitsO ∧ ∃ c ∈ rest, L ∈ c)) ∧
     (∀ u ∈ units, u ∈ unitsO) ∧
     (∀ u ∈ unitsO, u ∈ units ∨ u ∈ litsO)) := by
  intro rest
  induction rest with
  | nil =>
      intro var acc lits units kbO litsO unitsO h
      simp only [upScan, Option.some.injEq, Prod.mk.injEq] at h
      obtain ⟨rfl, rfl, rfl⟩ := h
      exact ⟨fun d hd => hd, fun d hd => Or.inl hd, fun L hL => hL,
        fun L hL => Or.inl hL, fun u hu => hu, fun u hu => Or.inl hu⟩
  | cons c rest ih =>
      intro var acc lits units kbO litsO unitsO h
      rw [upScan] at h
      by_cases h1 : c = []
      · rw [if_pos h1] at h; cases h
      rw [if_neg h1] at h
      by_cases h2 : var ∈ c
      · -- satisfied clause: dropped
        rw [if_pos h2] at h
        obtain ⟨hA1, hA2, hA3, hA4, hA5, hA6⟩ := ih var acc lits units kbO litsO unitsO h
        refine ⟨hA1, ?_, hA3, ?_, hA5, hA6⟩
        · intro d hd
          rcases hA2 d hd with hd2 | ⟨c2, hc2, hprop⟩
          · exact Or.inl hd2
          · exact Or.inr ⟨c2, List.mem_cons_of_mem c hc2, hprop⟩
        · intro L hL
          rcases hA4 L hL with hL2 | ⟨hu, c2, hc2, hlm⟩
          · exact Or.inl hL2
          · exact Or.inr ⟨hu, c2, List.mem_cons_of_mem c hc2, hlm⟩
      rw [if_neg h2] at h
      by_cases h3 : -var ∈ c
      · rw [if_pos h3] at h
        rcases hfil : c.filter (fun v => v ≠ -var) with _ | ⟨nl, _ | ⟨m, ms⟩⟩
        · rw [hfil] at h; dsimp only at h; cases h
        · -- new unit literal nl
          rw [hfil] at h
          dsimp only at h
          by_cases h4 : -nl ∈ lits
          · rw [if_pos h4] at h; cases h
          rw [if_neg h4] at h
          obtain ⟨hA1, hA2, hA3, hA4, hA5, hA6⟩ :=
            ih var acc (sadd lits nl) (sadd units nl) kbO litsO unitsO h
          have hnlc : nl ∈ c := (mem_filter_ne.mp (hfil ▸ List.mem_singleton.mpr rfl)).1
          refine ⟨hA1, ?_, ?_, ?_, ?_, ?_⟩
          · intro d hd
            rcases hA2 d hd with hd2 | ⟨c2, hc2, hprop⟩
            · exact Or.inl hd2
            · exact Or.inr ⟨c2, List.mem_cons_of_mem c hc2, hprop⟩
          · intro L hL
            exact hA3 L (subset_sadd lits nl L hL)
          · intro L hL
            rcases hA4 L hL with hL2 | ⟨hu, c2, hc2, hlm⟩
            · rcases mem_sadd.mp hL2 with hL3 | rfl
              · exact Or.inl hL3
              · exact Or.inr ⟨hA5 L (self_mem_sadd units L), c,
                  List.mem_cons_self c rest, hnlc⟩
            · exact Or.inr ⟨hu, c2, List.mem_cons_of_mem c hc2, hlm⟩
          · intro u hu
            exact hA5 u (subset_sadd units nl u hu)
          · intro u hu
            rcases hA6 u hu with hu2 | hu2
            · rcases mem_sadd.mp hu2 with hu3 | rfl
              · exact Or.inl hu3
              · exact Or.inr (hA3 u (self_mem_sadd lits u))
            · exact Or.inr hu2
        · -- shrunk clause of length at least 2
          rw [hfil] at h
          dsimp only at h
          obtain ⟨hA1, hA2, hA3, hA4, hA5, hA6⟩ :=
            ih var (sadd acc (nl :: m :: ms)) lits units kbO litsO unitsO h
          refine ⟨?_, ?_, hA3, ?_, hA5, hA6⟩
          · intro d hd
            exact hA1 d (subset_sadd acc (nl :: m :: ms) d hd)
          · intro d hd
            rcases hA2 d hd with hd2 | ⟨c2, hc2, hprop⟩
            · rcases mem_sadd.mp hd2 with hd3 | rfl
              · exact Or.inl hd3
              · refine Or.inr ⟨c, List.mem_cons_self c rest, ?_, ?_, ?_, ?_, Or.inr ?_⟩
                · intro x hx
                  exact (mem_filter_ne.mp (hfil ▸ hx)).1
                · intro hvar
                  exact h2 (mem_filter_ne.mp (hfil ▸ hvar)).1
                · intro hvar
                  exact (mem_filter_ne.mp (hfil ▸ hvar)).2 rfl
                · exact List.cons_ne_nil nl (m :: ms)
                · simp
            · exact Or.inr ⟨c2, List.mem_cons_of_mem c hc2, hprop⟩
          · intro L hL
            rcases hA4 L hL with hL2 | ⟨hu, c2, hc2, hlm⟩
            · exact Or.inl hL2
            · exact Or.inr ⟨hu, c2, List.mem_cons_of_mem c hc2, hlm⟩
      · -- untouched clause: kept
        rw [if_neg h3] at h
        obtain ⟨hA1, hA2, hA3, hA4, hA5, hA6⟩ :=
          ih var (sadd acc c) lits units kbO litsO unitsO h
        refine ⟨?_, ?_, hA3, ?_, hA5, hA6⟩
        · intro d hd
          exact hA1 d (subset_sadd acc c d hd)
        · intro d hd
          rcases hA2 d hd with hd2 | ⟨c2, hc2, hprop⟩
          · rcases mem_sadd.mp hd2 with hd3 | hdc
            · exact Or.inl hd3
            · refine Or.inr ⟨c, List.mem_cons_self c rest, ?_, ?_, ?_, ?_, Or.inl hdc⟩
              · intro x hx; rw [hdc] at hx; exact hx
              · rw [hdc]; exact h2
              · rw [hdc]; exact h3
              · rw [hdc]; exact h1
          · exact Or.inr ⟨c2, List.mem_cons_of_mem c hc2, hprop⟩
        · intro L hL
          rcases hA4 L hL with hL2 | ⟨hu, c2, hc2, hlm⟩
          · exact Or.inl hL2
          · exact Or.inr ⟨hu, c2, List.mem_cons_of_mem c hc2, hlm⟩

end SatPy

namespace SatPy

theorem two_le_length_of_two_mem {c : List Int} {x y : Int}
    (hx : x ∈ c) (hy : y ∈ c) (hxy : x ≠ y) : 2 ≤ c.length := by
  match c with
  | [] => exact absurd hx (List.not_mem_nil x)
  | [z] =>
      exact absurd (List.mem_singleton.mp hx ▸ (List.mem_singleton.mp hy).symm ▸ rfl : x = y) hxy
  | z :: w :: rest => simp only [List.length_cons]; omega

/-- Fuel measure of a scan: the occurrence count of the produced kb plus
the pending unit count never exceeds that of the inputs (each new unit
consumes a clause of length at least 2). -/
theorem upScan_measure : ∀ (rest : List Clause) (var : Int) (acc : KB) (lits : Lits)
    (units : List Int) (kbO : KB) (litsO : Lits) (unitsO : List Int),
    upScan var rest acc lits units = some (kbO, litsO, unitsO) →
    numOcc kbO + unitsO.length ≤ numOcc acc + numOcc rest + units.length := by
  intro rest
  induction rest with
  | nil =>
      intro var acc lits units kbO litsO unitsO h
      simp only [upScan, Option.some.injEq, Prod.mk.injEq] at h
      obtain ⟨rfl, rfl, rfl⟩ := h
      simp [numOcc]
  | cons c rest ih =>
      intro var acc lits units kbO litsO unitsO h
      rw [upScan] at h
      by_cases h1 : c = []
      · rw [if_pos h1] at h; cases h
      rw [if_neg h1] at h
      rw [numOcc_cons]
      by_cases h2 : var ∈ c
      · rw [if_pos h2] at h
        have := ih var acc lits units kbO litsO unitsO h
        omega
      rw [if_neg h2] at h
      by_cases h3 : -var ∈ c
      · rw [if_pos h3] at h
        rcases hfil : c.filter (fun v => v ≠ -var) with _ | ⟨nl, _ | ⟨m, ms⟩⟩
        · rw [hfil] at h; dsimp only at h; cases h
        · rw [hfil] at h
          dsimp only at h
          by_cases h4 : -nl ∈ lits
          · rw [if_pos h4] at h; cases h
          rw [if_neg h4] at h
          have hrec := ih var acc (sadd lits nl) (sadd units nl) kbO litsO unitsO h
          have hlen : (sadd units nl).length ≤ units.length + 1 := sadd_length_le units nl
          have hnlc : nl ∈ c := (mem_filter_ne.mp (hfil ▸ List.mem_singleton.mpr rfl)).1
          have hne : nl ≠ -var := (mem_filter_ne.mp (hfil ▸ List.mem_singleton.mpr rfl)).2
          have hclen : 2 ≤ c.length := two_le_length_of_two_mem hnlc h3 hne
          omega
        · rw [hfil] at h
          dsimp only at h
          have hrec := ih var (sadd acc (nl :: m :: ms)) lits units kbO litsO unitsO h
          have hacc : numOcc (sadd acc (nl :: m :: ms)) ≤ numOcc acc + (nl :: m :: ms).length :=
            numOcc_sadd_le acc (nl :: m :: ms)
          have hflen : (nl :: m :: ms).length ≤ c.length := by
            rw [← hfil]; exact List.length_filter_le _ c
          omega
      · rw [if_neg h3] at h
        have hrec := ih var (sadd acc c) lits units kbO litsO unitsO h
        have hacc : numOcc (sadd acc c) ≤ numOcc acc + c.length := numOcc_sadd_le acc c
        omega

/-- A scan preserves the invariant that any conflicting pair in the
literal set still has a member pending in the unit work list. -/
theorem upScan_consistent : ∀ (rest : List Clause) (var : Int) (acc : KB) (lits : Lits)
    (units : List Int) (kbO : KB) (litsO : Lits) (unitsO : List Int),
    upScan var rest acc lits units = some (kbO, litsO, unitsO) →
    (∀ x, x ∈ lits → -x ∈ lits → (x ∈ units ∨ -x ∈ units)) →
    (∀ x, x ∈ litsO → -x ∈ litsO → (x ∈ unitsO ∨ -x ∈ unitsO)) := by
  intro rest
  induction rest with
  | nil =>
      intro var acc lits units kbO litsO unitsO h hP
      simp only [upScan, Option.some.injEq, Prod.mk.injEq] at h
      obtain ⟨rfl, rfl, rfl⟩ := h
      exact hP
  | cons c rest ih =>
      intro var acc lits units kbO litsO unitsO h hP
      rw [upScan] at h
      by_cases h1 : c = []
      · rw [if_pos h1] at h; cases h
      rw [if_neg h1] at h
      by_cases h2 : var ∈ c
      · rw [if_pos h2] at h
        exact ih var acc lits units kbO litsO unitsO h hP
      rw [if_neg h2] at h
      by_cases h3 : -var ∈ c
      · rw [if_pos h3] at h
        rcases hfil : c.filter (fun v => v ≠ -var) with _ | ⟨nl, _ | ⟨m, ms⟩⟩
        · rw [hfil] at h; dsimp only at h; cases h
        · rw [hfil] at h
          dsimp only at h
          by_cases h4 : -nl ∈ lits
          · rw [if_pos h4] at h; cases h
          rw [if_neg h4] at h
          refine ih var acc (sadd lits nl) (sadd units nl) kbO litsO unitsO h ?_
          intro x hx hnx
          rcases mem_sadd.mp hx with hx2 | rfl
          · rcases mem_sadd.mp hnx with hnx2 | hnx2
            · rcases hP x hx2 hnx2 with h5 | h5
              · exact Or.inl (subset_sadd units nl x h5)
              · exact Or.inr (subset_sadd units nl (-x) h5)
            · exact Or.inr (hnx2 ▸ self_mem_sadd units nl)
          · exact Or.inl (self_mem_sadd units x)
        · rw [hfil] at h
          dsimp only at h
          exact ih var (sadd acc (nl :: m :: ms)) lits units kbO litsO unitsO h hP
      · rw [if_neg h3] at h
        exact ih var (sadd acc c) lits units kbO litsO unitsO h hP

/-- Every scanned clause is either already satisfied by a literal recorded
in the output literal set, or leaves a descendant (a subset of itself) in
the output kb. -/
theorem upScan_trace : ∀ (rest : List Clause) (var : Int) (acc : KB) (lits : Lits)
    (units : List Int) (kbO : KB) (litsO : Lits) (unitsO : List Int),
    upScan var rest acc lits units = some (kbO, litsO, unitsO) →
    var ∈ lits →
    ∀ c ∈ rest, (∃ l ∈ c, l ∈ litsO) ∨ ∃ d ∈ kbO, ∀ x ∈ d, x ∈ c := by
  intro rest
  induction rest with
  | nil =>
      intro var acc lits units kbO litsO unitsO h hv c hc
      cases hc
  | cons c0 rest ih =>
      intro var acc lits units kbO litsO unitsO h hv c hc
      rw [upScan] at h
      by_cases h1 : c0 = []
      · rw [if_pos h1] at h; cases h
      rw [if_neg h1] at h
      by_cases h2 : var ∈ c0
      · rw [if_pos h2] at h
        have hA3 := (upScan_shape rest var acc lits units kbO litsO unitsO h).2.2.1
        rcases List.mem_cons.mp hc with rfl | hc2
        · exact Or.inl ⟨var, h2, hA3 var hv⟩
        · exact ih var acc lits units kbO litsO unitsO h hv c hc2
      rw [if_neg h2] at h
      by_cases h3 : -var ∈ c0
      · rw [if_pos h3] at h
        rcases hfil : c0.filter (fun v => v ≠ -var) with _ | ⟨nl, _ | ⟨m, ms⟩⟩
        · rw [hfil] at h; dsimp only at h; cases h
        · rw [hfil] at h
          dsimp only at h
          by_cases h4 : -nl ∈ lits
          · rw [if_pos h4] at h; cases h
          rw [if_neg h4] at h
          have hA3 := (upScan_shape rest var acc (sadd lits nl) (sadd units nl)
            kbO litsO unitsO h).2.2.1
          rcases List.mem_cons.mp hc with rfl | hc2
          · refine Or.inl ⟨nl, (mem_filter_ne.mp (hfil ▸ List.mem_singleton.mpr rfl)).1,
              hA3 nl (self_mem_sadd lits nl)⟩
          · exact ih var acc (sadd lits nl) (sadd units nl) kbO litsO unitsO h
              (subset_sadd lits nl var hv) c hc2
        · rw [hfil] at h
          dsimp only at h
          have hA1 := (upScan_shape rest var (sadd acc (nl :: m :: ms)) lits units
            kbO litsO unitsO h).1
          rcases List.mem_cons.mp hc with rfl | hc2
          · refine Or.inr ⟨nl :: m :: ms,
              hA1 _ (self_mem_sadd acc (nl :: m :: ms)), ?_⟩
            intro x hx
            exact (mem_filter_ne.mp (hfil ▸ hx)).1
          · exact ih var (sadd acc (nl :: m :: ms)) lits units kbO litsO unitsO h hv c hc2
      · rw [if_neg h3] at h
        have hA1 := (upScan_shape rest var (sadd acc c0) lits units kbO litsO unitsO h).1
        rcases List.mem_cons.mp hc with rfl | hc2
        · exact Or.inr ⟨c, hA1 c (self_mem_sadd acc c), fun x hx => hx⟩
        · exact ih var (sadd acc c0) lits units kbO litsO unitsO h hv c hc2

end SatPy

namespace SatPy

theorem satLit_neg (a : Int → Bool) {l : Int} (h : l ≠ 0) :
    satLit a (-l) = !(satLit a l) := by
  unfold satLit
  rcases lt_trichotomy l 0 with h1 | h1 | h1
  · rw [if_pos (by omega : (0 : Int) < -l), if_neg (by omega : ¬((0 : Int) < l)),
      Bool.not_not]
  · exact absurd h1 h
  · rw [if_neg (by omega : ¬((0 : Int) < -l)), if_pos h1, neg_neg]

theorem satLit_total (a : Int → Bool) {l : Int} (h : l ≠ 0) :
    satLit a l = true ∨ satLit a (-l) = true := by
  rw [satLit_neg a h]
  cases satLit a l
  · exact Or.inr rfl
  · exact Or.inl rfl

/-- Under any model of everything in play, a scan never signals
contradiction and its outputs are again modelled. -/
theorem upScan_model (a : Int → Bool) : ∀ (rest : List Clause) (var : Int) (acc : KB)
    (lits : Lits) (units : List Int),
    var ≠ 0 → satLit a var = true →
    (∀ c ∈ rest, SatClause a c) → (∀ c ∈ acc, SatClause a c) →
    (∀ L ∈ lits, satLit a L = true) → (∀ u ∈ units, satLit a u = true) →
    (∀ l ∈ rest.flatten, l ≠ 0) →
    ∃ kbO litsO unitsO, upScan var rest acc lits units = some (kbO, litsO, unitsO) ∧
      (∀ c ∈ kbO, SatClause a c) ∧ (∀ L ∈ litsO, satLit a L = true) ∧
      (∀ u ∈ unitsO, satLit a u = true) := by
  intro rest
  induction rest with
  | nil =>
      intro var acc lits units hv0 hsv hrest hacc hlits hunits hz
      exact ⟨acc, lits, units, rfl, hacc, hlits, hunits⟩
  | cons c rest ih =>
      intro var acc lits units hv0 hsv hrest hacc hlits hunits hz
      have hzr : ∀ l ∈ rest.flatten, l ≠ 0 := by
        intro l hl
        exact hz l (by rw [List.flatten_cons]; exact List.mem_append_right c hl)
      have hzc : ∀ l ∈ c, l ≠ 0 := by
        intro l hl
        exact hz l (by rw [List.flatten_cons]; exact List.mem_append_left _ hl)
      have hsatc : SatClause a c := hrest c (List.mem_cons_self c rest)
      have hrest2 : ∀ d ∈ rest, SatClause a d :=
        fun d hd => hrest d (List.mem_cons_of_mem c hd)
      rw [upScan]
      have h1 : ¬(c = []) := by
        intro hceq
        rcases hsatc with ⟨l, hl, _⟩
        rw [hceq] at hl
        cases hl
      rw [if_neg h1]
      by_cases h2 : var ∈ c
      · rw [if_pos h2]
        exact ih var acc lits units hv0 hsv hrest2 hacc hlits hunits hzr
      rw [if_neg h2]
      by_cases h3 : -var ∈ c
      · rw [if_pos h3]
        have hnotnegvar : ∀ l ∈ c, satLit a l = true → l ≠ -var := by
          intro l _ hsat hlv
          rw [hlv, satLit_neg a hv0, hsv] at hsat
          cases hsat
        rcases hfil : c.filter (fun v => v ≠ -var) with _ | ⟨nl, _ | ⟨m, ms⟩⟩
        · -- the clause held only the complement: impossible under the model
          exfalso
          rcases hsatc with ⟨l, hl, hsat⟩
          have : l ∈ c.filter (fun v => v ≠ -var) :=
            mem_filter_ne.mpr ⟨hl, hnotnegvar l hl hsat⟩
          rw [hfil] at this
          cases this
        · -- the clause shrank to a unit that the model satisfies
          dsimp only
          have hnlsat : satLit a nl = true := by
            rcases hsatc with ⟨l, hl, hsat⟩
            have : l ∈ c.filter (fun v => v ≠ -var) :=
              mem_filter_ne.mpr ⟨hl, hnotnegvar l hl hsat⟩
            rw [hfil] at this
            rcases List.mem_singleton.mp this with rfl
            exact hsat
          have hnlc : nl ∈ c := (mem_filter_ne.mp (hfil ▸ List.mem_singleton.mpr rfl)).1
          have hnl0 : nl ≠ 0 := hzc nl hnlc
          have h4 : -nl ∉ lits := by
            intro h4
            have := hlits (-nl) h4
            rw [satLit_neg a hnl0, hnlsat] at this
            cases this
          rw [if_neg h4]
          refine ih var acc (sadd lits nl) (sadd units nl) hv0 hsv hrest2 hacc ?_ ?_ hzr
          · intro L hL
            rcases mem_sadd.mp hL with hL2 | rfl
            · exact hlits L hL2
            · exact hnlsat
          · intro u hu
            rcases mem_sadd.mp hu with hu2 | rfl
            · exact hunits u hu2
            · exact hnlsat
        · -- the clause shrank but keeps at least two literals
          dsimp only
          refine ih var (sadd acc (nl :: m :: ms)) lits units hv0 hsv hrest2 ?_
            hlits hunits hzr
          intro d hd
          rcases mem_sadd.mp hd with hd2 | rfl
          · exact hacc d hd2
          · rcases hsatc with ⟨l, hl, hsat⟩
            have : l ∈ c.filter (fun v => v ≠ -var) :=
              mem_filter_ne.mpr ⟨hl, hnotnegvar l hl hsat⟩
            rw [hfil] at this
            exact ⟨l, this, hsat⟩
      · rw [if_neg h3]
        refine ih var (sadd acc c) lits units hv0 hsv hrest2 ?_ hlits hunits hzr
        intro d hd
        rcases mem_sadd.mp hd with hd2 | rfl
        · exact hacc d hd2
        · exact hsatc

end SatPy

namespace SatPy

/-- The while loop of `unit_propogate` never exhausts the fuel
`numOcc kb + units.length + 1`: every iteration removes a pending unit and
the scan adds at most as many units as occurrences it deletes. -/
theorem upLoop_fuel_enough : ∀ (fuel : Nat) (kb : KB) (lits : Lits) (units : List Int),
    numOcc kb + units.length < fuel → upLoop fuel kb lits units ≠ none := by
  intro fuel
  induction fuel with
  | zero => intro kb lits units h; omega
  | succ fuel ih =>
      intro kb lits units h
      cases units with
      | nil => rw [upLoop]; exact Option.some_ne_none _
      | cons var units2 =>
          rw [upLoop]
          by_cases hneg : -var ∈ lits
          · rw [if_pos hneg]; exact Option.some_ne_none _
          rw [if_neg hneg]
          rcases hscan : upScan var kb [] lits units2 with _ | ⟨kbO, litsO, unitsO⟩
          · exact Option.some_ne_none _
          · dsimp only
            apply ih
            have hm := upScan_measure kb var [] lits units2 kbO litsO unitsO hscan
            have hz : numOcc ([] : KB) = 0 := rfl
            simp only [List.length_cons] at h
            omega

/-- Output facts of a successful run of the `unit_propogate` while loop:
the literal set only grows and new literals come from the kb; clause
occurrences only shrink; empty-freeness and unit-freeness of the kb are
preserved; literals whose processing is complete (not pending as units) do
not occur (and their complements do not occur) in the output kb; any
conflicting pair pending in the unit list is resolved or aborted, so the
output literal set is consistent; and every input clause is either
satisfied by an output literal or survives as a subset of itself. -/
theorem upLoop_out : ∀ (fuel : Nat) (kb : KB) (lits : Lits) (units : List Int)
    (kb2 : KB) (lits2 : Lits),
    upLoop fuel kb lits units = some (some (kb2, lits2)) →
    ((∀ L ∈ lits, L ∈ lits2) ∧
     (∀ l ∈ kb2.flatten, l ∈ kb.flatten) ∧
     (∀ L ∈ lits2, L ∈ lits ∨ L ∈ kb.flatten) ∧
     ((∀ c ∈ kb, c ≠ []) → ∀ c ∈ kb2, c ≠ []) ∧
     ((∀ c ∈ kb, 2 ≤ c.length) → ∀ c ∈ kb2, 2 ≤ c.length) ∧
     ((∀ L ∈ lits, L ∈ units ∨ L ∉ kb.flatten) → ∀ L ∈ lits2, L ∉ kb2.flatten) ∧
     ((∀ L ∈ lits, L ∈ units ∨ -L ∉ kb.flatten) → ∀ L ∈ lits2, -L ∉ kb2.flatten) ∧
     ((∀ x, x ∈ lits → -x ∈ lits → (x ∈ units ∨ -x ∈ units)) → Consistent lits2) ∧
     ((∀ u ∈ units, u ∈ lits) →
        ∀ c ∈ kb, (∃ l ∈ c, l ∈ lits2) ∨ ∃ d ∈ kb2, ∀ x ∈ d, x ∈ c)) := by
  intro fuel
  induction fuel with
  | zero => intro kb lits units kb2 lits2 h; cases h
  | succ fuel ih =>
      intro kb lits units kb2 lits2 h
      cases units with
      | nil =>
          rw [upLoop] at h
          simp only [Option.some.injEq, Prod.mk.injEq] at h
          obtain ⟨rfl, rfl⟩ := h
          refine ⟨fun L hL => hL, fun l hl => hl, fun L hL => Or.inl hL,
            fun hne => hne, fun hlen => hlen, ?_, ?_, ?_, ?_⟩
          · intro he L hL
            rcases he L hL with h2 | h2
            · cases h2
            · exact h2
          · intro he L hL
            rcases he L hL with h2 | h2
            · cases h2
            · exact h2
          · intro hP x hx hnx
            rcases hP x hx hnx with h2 | h2 <;> cases h2
          · intro _ c hc
            exact Or.inr ⟨c, hc, fun x hx => hx⟩
      | cons var units2 =>
          rw [upLoop] at h
          by_cases hneg : -var ∈ lits
          · rw [if_pos hneg] at h; simp at h
          rw [if_neg hneg] at h
          rcases hscan : upScan var kb [] lits units2 with _ | ⟨kbO, litsO, unitsO⟩
          · rw [hscan] at h; simp at h
          rw [hscan] at h
          dsimp only at h
          obtain ⟨_, hA2, hA3, hA4, hA5, hA6⟩ :=
            upScan_shape kb var [] lits units2 kbO litsO unitsO hscan
          have hA2x : ∀ d ∈ kbO, ∃ c ∈ kb,
              (∀ x ∈ d, x ∈ c) ∧ var ∉ d ∧ -var ∉ d ∧ d ≠ [] ∧ (d = c ∨ 2 ≤ d.length) := by
            intro d hd
            rcases hA2 d hd with h2 | h2
            · cases h2
            · exact h2
          have hOsub : ∀ l ∈ kbO.flatten, l ∈ kb.flatten := by
            intro l hl
            rcases List.mem_flatten.mp hl with ⟨d, hd, hld⟩
            rcases hA2x d hd with ⟨c, hc, hsub, _⟩
            exact List.mem_flatten.mpr ⟨c, hc, hsub l hld⟩
          have hvarO : var ∉ kbO.flatten ∧ -var ∉ kbO.flatten := by
            constructor
            · intro hl
              rcases List.mem_flatten.mp hl with ⟨d, hd, hld⟩
              obtain ⟨c, _, _, hv, _, _, _⟩ := hA2x d hd
              exact hv hld
            · intro hl
              rcases List.mem_flatten.mp hl with ⟨d, hd, hld⟩
              obtain ⟨c, _, _, _, hv, _, _⟩ := hA2x d hd
              exact hv hld
          obtain ⟨hI1, hI2, hI3, hI4, hI5, hI6, hI7, hI8, hI9⟩ :=
            ih kbO litsO unitsO kb2 lits2 h
          refine ⟨?_, ?_, ?_, ?_, ?_, ?_, ?_, ?_, ?_⟩
          · exact fun L hL => hI1 L (hA3 L hL)
          · exact fun l hl => hOsub l (hI2 l hl)
          · intro L hL
            rcases hI3 L hL with h2 | h2
            · rcases hA4 L h2 with h3 | ⟨_, c, hc, hlc⟩
              · exact Or.inl h3
              · exact Or.inr (List.mem_flatten.mpr ⟨c, hc, hlc⟩)
            · exact Or.inr (hOsub L h2)
          · intro hne
            refine hI4 ?_
            intro c hc
            obtain ⟨c2, _, _, _, _, hnil, _⟩ := hA2x c hc
            exact hnil
          · intro hlen
            refine hI5 ?_
            intro c hc
            rcases hA2x c hc with ⟨c2, hc2, _, _, _, _, hor⟩
            rcases hor with rfl | h2
            · exact hlen c hc2
            · exact h2
          · intro he
            refine hI6 ?_
            intro L hL
            rcases hA4 L hL with h2 | ⟨hu, _⟩
            · rcases he L h2 with h3 | h3
              · rcases List.mem_cons.mp h3 with rfl | h4
                · exact Or.inr hvarO.1
                · exact Or.inl (hA5 L h4)
              · exact Or.inr (fun hmem => h3 (hOsub L hmem))
            · exact Or.inl hu
          · intro he
            refine hI7 ?_
            intro L hL
            rcases hA4 L hL with h2 | ⟨hu, _⟩
            · rcases he L h2 with h3 | h3
              · rcases List.mem_cons.mp h3 with rfl | h4
                · exact Or.inr hvarO.2
                · exact Or.inl (hA5 L h4)
              · exact Or.inr (fun hmem => h3 (hOsub (-L) hmem))
            · exact Or.inl hu
          · intro hP
            refine hI8 (upScan_consistent kb var [] lits units2 kbO litsO unitsO hscan ?_)
            intro x hx hnx
            rcases hP x hx hnx with h2 | h2
            · rcases List.mem_cons.mp h2 with rfl | h3
              · exact absurd hnx hneg
              · exact Or.inl h3
            · rcases List.mem_cons.mp h2 with h3 | h3
              · rw [h3] at hnx
                exact absurd (by rw [← neg_neg x] at hx; exact hx) (by rw [h3]; exact hneg)
              · exact Or.inr h3
          · intro hQ c hc
            have hvl : var ∈ lits := hQ var (List.mem_cons_self var units2)
            have hQ2 : ∀ u ∈ unitsO, u ∈ litsO := by
              intro u hu
              rcases hA6 u hu with h2 | h2
              · exact hA3 u (hQ u (List.mem_cons_of_mem var h2))
              · exact h2
            rcases upScan_trace kb var [] lits units2 kbO litsO unitsO hscan hvl c hc with
              ⟨l, hlc, hllits⟩ | ⟨d, hd, hsub⟩
            · exact Or.inl ⟨l, hlc, hI1 l hllits⟩
            · rcases hI9 hQ2 d hd with ⟨l, hld, hl2⟩ | ⟨d2, hd2, hsub2⟩
              · exact Or.inl ⟨l, hsub l hld, hl2⟩
              · exact Or.inr ⟨d2, hd2, fun x hx => hsub x (hsub2 x hx)⟩

end SatPy

namespace SatPy

/-- Under a model of the kb, the current literal set and the pending
units (all zero-free), the while loop cannot abort: it runs to a reduced
kb and literal set that the same model satisfies. -/
theorem upLoop_model (a : Int → Bool) : ∀ (fuel : Nat) (kb : KB) (lits : Lits)
    (units : List Int),
    numOcc kb + units.length < fuel →
    (∀ c ∈ kb, SatClause a c) → (∀ L ∈ lits, satLit a L = true) →
    (∀ u ∈ units, satLit a u = true) →
    (∀ l ∈ kb.flatten, l ≠ 0) → (∀ L ∈ lits, L ≠ 0) → (∀ u ∈ units, u ≠ 0) →
    ∃ kb2 lits2, upLoop fuel kb lits units = some (some (kb2, lits2)) ∧
      (∀ c ∈ kb2, SatClause a c) ∧ (∀ L ∈ lits2, satLit a L = true) ∧
      (∀ l ∈ kb2.flatten, l ≠ 0) ∧ (∀ L ∈ lits2, L ≠ 0) := by
  intro fuel
  induction fuel with
  | zero => intro kb lits units h; omega
  | succ fuel ih =>
      intro kb lits units hfuel hkb hlits hunits hz hlz huz
      cases units with
      | nil =>
          exact ⟨kb, lits, rfl, hkb, hlits, hz, hlz⟩
      | cons var units2 =>
          have hv0 : var ≠ 0 := huz var (List.mem_cons_self var units2)
          have hsv : satLit a var = true := hunits var (List.mem_cons_self var units2)
          have hneg : -var ∉ lits := by
            intro hneg
            have := hlits (-var) hneg
            rw [satLit_neg a hv0, hsv] at this
            cases this
          rw [upLoop, if_neg hneg]
          obtain ⟨kbO, litsO, unitsO, hscan, hkbO, hlitsO, hunitsO⟩ :=
            upScan_model a kb var [] lits units2 hv0 hsv hkb
              (fun c hc => absurd hc (List.not_mem_nil c))
              hlits (fun u hu => hunits u (List.mem_cons_of_mem var hu)) hz
          rw [hscan]
          dsimp only
          obtain ⟨_, hA2, hA3, hA4, hA5, hA6⟩ :=
            upScan_shape kb var [] lits units2 kbO litsO unitsO hscan
          have hOsub : ∀ l ∈ kbO.flatten, l ∈ kb.flatten := by
            intro l hl
            rcases List.mem_flatten.mp hl with ⟨d, hd, hld⟩
            rcases hA2 d hd with h2 | ⟨c, hc, hsub, _⟩
            · cases h2
            · exact List.mem_flatten.mpr ⟨c, hc, hsub l hld⟩
          have hlitsOz : ∀ L ∈ litsO, L ≠ 0 := by
            intro L hL
            rcases hA4 L hL with h2 | ⟨_, c, hc, hlc⟩
            · exact hlz L h2
            · exact hz L (List.mem_flatten.mpr ⟨c, hc, hlc⟩)
          have hunitsOz : ∀ u ∈ unitsO, u ≠ 0 := by
            intro u hu
            rcases hA6 u hu with h2 | h2
            · exact huz u (List.mem_cons_of_mem var h2)
            · exact hlitsOz u h2
          have hm := upScan_measure kb var [] lits units2 kbO litsO unitsO hscan
          refine ih kbO litsO unitsO ?_ hkbO hlitsO hunitsO
            (fun l hl => hz l (hOsub l hl)) hlitsOz hunitsOz
          have hzn : numOcc ([] : KB) = 0 := rfl
          simp only [List.length_cons] at hfuel
          omega

theorem unit_propogate_eq_some {var : Int} {kb : KB} {lits : Lits} {r : KB × Lits} :
    unit_propogate var kb lits = some r ↔
      upLoop (numOcc kb + 2) kb (sadd lits var) [var] = some (some r) := by
  unfold unit_propogate
  have hne := upLoop_fuel_enough (numOcc kb + 2) kb (sadd lits var) [var] (by simp)
  rcases h : upLoop (numOcc kb + 2) kb (sadd lits var) [var] with _ | (_ | r2)
  · exact absurd h hne
  · simp
  · simp

/-- Output facts of a successful `unit_propogate(var, kb, literals)` call,
read off `upLoop_out` with seed literal set `literals ∪ {var}` and seed
work list `{var}`. -/
theorem unit_propogate_out {var : Int} {kb : KB} {lits : Lits} {kb2 : KB} {lits2 : Lits}
    (h : unit_propogate var kb lits = some (kb2, lits2)) :
    ((∀ L ∈ lits, L ∈ lits2) ∧ var ∈ lits2 ∧
     (∀ l ∈ kb2.flatten, l ∈ kb.flatten) ∧
     (∀ L ∈ lits2, L = var ∨ L ∈ lits ∨ L ∈ kb.flatten) ∧
     ((∀ c ∈ kb, c ≠ []) → ∀ c ∈ kb2, c ≠ []) ∧
     ((∀ c ∈ kb, 2 ≤ c.length) → ∀ c ∈ kb2, 2 ≤ c.length) ∧
     (Consistent lits → Consistent lits2) ∧
     (∀ c ∈ kb, (∃ l ∈ c, l ∈ lits2) ∨ ∃ d ∈ kb2, ∀ x ∈ d, x ∈ c)) := by
  have h2 := unit_propogate_eq_some.mp h
  obtain ⟨hI1, hI2, hI3, hI4, hI5, _, _, hI8, hI9⟩ :=
    upLoop_out (numOcc kb + 2) kb (sadd lits var) [var] kb2 lits2 h2
  refine ⟨fun L hL => hI1 L (subset_sadd lits var L hL),
    hI1 var (self_mem_sadd lits var), hI2, ?_, hI4, hI5, ?_, ?_⟩
  · intro L hL
    rcases hI3 L hL with h3 | h3
    · rcases mem_sadd.mp h3 with h4 | rfl
      · exact Or.inr (Or.inl h4)
      · exact Or.inl rfl
    · exact Or.inr (Or.inr h3)
  · intro hcons
    refine hI8 ?_
    intro x hx hnx
    rcases mem_sadd.mp hx with hx2 | rfl
    · rcases mem_sadd.mp hnx with hnx2 | hnx2
      · exact absurd hnx2 (hcons x hx2)
      · exact Or.inr (hnx2 ▸ List.mem_singleton.mpr rfl)
    · exact Or.inl (List.mem_singleton.mpr rfl)
  · refine hI9 ?_
    intro u hu
    rcases List.mem_singleton.mp hu with rfl
    exact self_mem_sadd lits u

/-- The propagated literal is eliminated from the returned kb in both
polarities (hence, below, each recursive `dpll_helper` call drops its
branching variable). -/
theorem unit_propogate_var_eliminated {var : Int} {kb : KB} {lits : Lits}
    {kb2 : KB} {lits2 : Lits} (h : unit_propogate var kb lits = some (kb2, lits2)) :
    var ∉ kb2.flatten ∧ -var ∉ kb2.flatten := by
  have h2 := unit_propogate_eq_some.mp h
  rw [show numOcc kb + 2 = (numOcc kb + 1) + 1 from rfl] at h2
  rw [upLoop] at h2
  by_cases hneg : -var ∈ sadd lits var
  · rw [if_pos hneg] at h2; simp at h2
  rw [if_neg hneg] at h2
  rcases hscan : upScan var kb [] (sadd lits var) [] with _ | ⟨kbO, litsO, unitsO⟩
  · rw [hscan] at h2; simp at h2
  rw [hscan] at h2
  dsimp only at h2
  obtain ⟨_, hA2, _, _, _, _⟩ :=
    upScan_shape kb var [] (sadd lits var) [] kbO litsO unitsO hscan
  obtain ⟨_, hL2, _, _, _, _, _, _, _⟩ :=
    upLoop_out (numOcc kb + 1) kbO litsO unitsO kb2 lits2 h2
  constructor
  · intro hmem
    rcases List.mem_flatten.mp (hL2 var hmem) with ⟨d, hd, hld⟩
    rcases hA2 d hd with h3 | ⟨c, _, _, hv, _, _, _⟩
    · cases h3
    · exact hv hld
  · intro hmem
    rcases List.mem_flatten.mp (hL2 (-var) hmem) with ⟨d, hd, hld⟩
    rcases hA2 d hd with h3 | ⟨c, _, _, _, hv, _, _⟩
    · cases h3
    · exact hv hld

/-- The invariant that no assignment-set literal's complement occurs in the
kb survives a successful `unit_propogate`. -/
theorem unit_propogate_inv {var : Int} {kb : KB} {lits : Lits} {kb2 : KB} {lits2 : Lits}
    (h : unit_propogate var kb lits = some (kb2, lits2))
    (hinv : ∀ L ∈ lits, -L ∉ kb.flatten) :
    ∀ L ∈ lits2, -L ∉ kb2.flatten := by
  have h2 := unit_propogate_eq_some.mp h
  obtain ⟨_, _, _, _, _, _, hI7, _, _⟩ :=
    upLoop_out (numOcc kb + 2) kb (sadd lits var) [var] kb2 lits2 h2
  refine hI7 ?_
  intro L hL
  rcases mem_sadd.mp hL with hL2 | rfl
  · exact Or.inr (hinv L hL2)
  · exact Or.inl (List.mem_singleton.mpr rfl)

/-- Claim C6 companion at loop level: literals already fully propagated
stay absent from the kb. -/
theorem unit_propogate_eliminated {var : Int} {kb : KB} {lits : Lits}
    {kb2 : KB} {lits2 : Lits} (h : unit_propogate var kb lits = some (kb2, lits2))
    (hinv : ∀ L ∈ lits, L ∉ kb.flatten) :
    ∀ L ∈ lits2, L ∉ kb2.flatten := by
  have h2 := unit_propogate_eq_some.mp h
  obtain ⟨_, _, _, _, _, hI6, _, _, _⟩ :=
    upLoop_out (numOcc kb + 2) kb (sadd lits var) [var] kb2 lits2 h2
  refine hI6 ?_
  intro L hL
  rcases mem_sadd.mp hL with hL2 | rfl
  · exact Or.inr (hinv L hL2)
  · exact Or.inl (List.mem_singleton.mpr rfl)

/-- Under a model of the kb, the seed literal and the literal set (all
zero-free), `unit_propogate` succeeds and the model still satisfies its
outputs. -/
theorem unit_propogate_model (a : Int → Bool) {var : Int} {kb : KB} {lits : Lits}
    (hv0 : var ≠ 0) (hsv : satLit a var = true)
    (hkb : ∀ c ∈ kb, SatClause a c) (hlits : ∀ L ∈ lits, satLit a L = true)
    (hz : ∀ l ∈ kb.flatten, l ≠ 0) (hlz : ∀ L ∈ lits, L ≠ 0) :
    ∃ kb2 lits2, unit_propogate var kb lits = some (kb2, lits2) ∧
      (∀ c ∈ kb2, SatClause a c) ∧ (∀ L ∈ lits2, satLit a L = true) ∧
      (∀ l ∈ kb2.flatten, l ≠ 0) ∧ (∀ L ∈ lits2, L ≠ 0) := by
  obtain ⟨kb2, lits2, hloop, hc1, hc2, hc3, hc4⟩ :=
    upLoop_model a (numOcc kb + 2) kb (sadd lits var) [var] (by simp)
      hkb
      (fun L hL => by
        rcases mem_sadd.mp hL with h2 | rfl
        · exact hlits L h2
        · exact hsv)
      (fun u hu => by rcases List.mem_singleton.mp hu with rfl; exact hsv)
      hz
      (fun L hL => by
        rcases mem_sadd.mp hL with h2 | rfl
        · exact hlz L h2
        · exact hv0)
      (fun u hu => by rcases List.mem_singleton.mp hu with rfl; exact hv0)
  exact ⟨kb2, lits2, unit_propogate_eq_some.mpr hloop, hc1, hc2, hc3, hc4⟩

end SatPy

namespace SatPy

/-- Claim C6: on a kb with no unit and no empty clauses and a consistent
assignment set none of whose literals occurs in the kb, a successful
`unit_propogate` returns a kb again free of unit and empty clauses in
which no literal of the returned assignment set occurs. -/
theorem C6_unit_propogate_invariants (var : Int) (kb : KB) (lits : Lits)
    (kb2 : KB) (lits2 : Lits)
    (hlen : ∀ c ∈ kb, c.length ≠ 0 ∧ c.length ≠ 1)
    (hcons : Consistent lits)
    (hocc : ∀ L ∈ lits, L ∉ kb.flatten)
    (h : unit_propogate var kb lits = some (kb2, lits2)) :
    (∀ c ∈ kb2, c.length ≠ 0 ∧ c.length ≠ 1) ∧
      (∀ L ∈ lits2, L ∉ kb2.flatten) := by
  obtain ⟨_, _, _, _, _, hI6, _, _⟩ := unit_propogate_out h
  constructor
  · intro c hc
    have h2 : 2 ≤ c.length := by
      refine hI6 ?_ c hc
      intro d hd
      have := hlen d hd
      omega
    omega
  · exact unit_propogate_eliminated h hocc

/-- Witness for C6: propagating 1 through `{(-1, 2, 3)}` leaves the kb
`{(2, 3)}` and the assignment set `{1}`. -/
theorem C6_unit_propogate_invariants_witness :
    (∀ c ∈ ([[2, 3]] : KB), c.length ≠ 0 ∧ c.length ≠ 1) ∧
      (∀ L ∈ ([1] : Lits), L ∉ ([[2, 3]] : KB).flatten) :=
  C6_unit_propogate_invariants 1 [[-1, 2, 3]] [] [[2, 3]] [1]
    (by decide) (fun x hx => absurd hx (List.not_mem_nil x))
    (fun L hL => absurd hL (List.not_mem_nil L)) (by decide)

/-! ### The recording pass of `pure_literal_assign`: which keys survive -/

/-- The occurrence stream of the nested `for clause in kb: for var in
clause` loops, as (clause, literal) pairs. -/
def occPairs : List Clause → List (Clause × Int)
  | [] => []
  | c :: cs => c.map (fun v => (c, v)) ++ occPairs cs

/-- The double loop as a single fold over the occurrence stream. -/
def plaOccs : List (Clause × Int) → (List Nat × List (Int × KB)) →
    List Nat × List (Int × KB)
  | [], st => st
  | p :: ps, st => plaOccs ps (plaStep p.1 st p.2)

theorem plaOccs_append : ∀ (l1 l2 : List (Clause × Int)) (st),
    plaOccs (l1 ++ l2) st = plaOccs l2 (plaOccs l1 st) := by
  intro l1
  induction l1 with
  | nil => intro l2 st; rfl
  | cons p ps ih => intro l2 st; exact ih l2 (plaStep p.1 st p.2)

theorem plaVars_eq_occs : ∀ (vs : List Int) (clause : Clause) (st),
    plaVars clause vs st = plaOccs (vs.map (fun v => (clause, v))) st := by
  intro vs
  induction vs with
  | nil => intro clause st; rfl
  | cons v vs ih => intro clause st; exact ih clause (plaStep clause st v)

theorem plaClauses_eq_occs : ∀ (cs : List Clause) (st),
    plaClauses cs st = plaOccs (occPairs cs) st := by
  intro cs
  induction cs with
  | nil => intro st; rfl
  | cons c cs ih =>
      intro st
      rw [show plaClauses (c :: cs) st = plaClauses cs (plaVars c c st) from rfl,
        ih, plaVars_eq_occs, show occPairs (c :: cs)
          = c.map (fun v => (c, v)) ++ occPairs cs from rfl, plaOccs_append]

theorem occPairs_mem : ∀ (cs : List Clause) (p : Clause × Int),
    p ∈ occPairs cs → p.1 ∈ cs ∧ p.2 ∈ p.1 := by
  intro cs
  induction cs with
  | nil => intro p hp; cases hp
  | cons c cs ih =>
      intro p hp
      rcases List.mem_append.mp hp with hp2 | hp2
      · rcases List.mem_map.mp hp2 with ⟨v, hv, rfl⟩
        exact ⟨List.mem_cons_self c cs, hv⟩
      · obtain ⟨h1, h2⟩ := ih p hp2
        exact ⟨List.mem_cons_of_mem c h1, h2⟩

theorem occPairs_snd : ∀ cs : List Clause, (occPairs cs).map Prod.snd = cs.flatten := by
  intro cs
  induction cs with
  | nil => rfl
  | cons c cs ih =>
      rw [show occPairs (c :: cs) = c.map (fun v => (c, v)) ++ occPairs cs from rfl,
        List.map_append, List.map_map, ih, List.flatten_cons]
      congr 1
      simp [Function.comp]

/-- Invariant of the recording pass, relative to the already-processed
occurrence stream `seen`: every surviving key occurred (in only that
polarity) among `seen` and is not marked impure; every seen literal is
marked impure or has a surviving key in one polarity; keys never repeat. -/
def PlaInv (seen : List Int) (st : List Nat × List (Int × KB)) : Prop :=
  (∀ p ∈ st.2.map Prod.fst, p ∈ seen ∧ -p ∉ seen ∧ p.natAbs ∉ st.1) ∧
  (∀ v ∈ seen, v.natAbs ∈ st.1 ∨ v ∈ st.2.map Prod.fst ∨ -v ∈ st.2.map Prod.fst) ∧
  (st.2.map Prod.fst).Nodup

theorem find?_key_isSome {pureD : List (Int × KB)} {x : Int} :
    (pureD.find? (fun p => p.1 = x)).isSome = true ↔ x ∈ pureD.map Prod.fst := by
  rw [List.find?_isSome]
  constructor
  · rintro ⟨p, hp, hx⟩
    refine List.mem_map.mpr ⟨p, hp, ?_⟩
    exact (of_decide_eq_true hx).symm ▸ rfl
  · intro hx
    rcases List.mem_map.mp hx with ⟨p, hp, rfl⟩
    exact ⟨p, hp, decide_eq_true rfl⟩

theorem keys_filter_mem {pureD : List (Int × KB)} {v q : Int} :
    q ∈ (pureD.filter (fun p => p.1 ≠ -v)).map Prod.fst ↔
      q ∈ pureD.map Prod.fst ∧ q ≠ -v := by
  constructor
  · intro hq
    rcases List.mem_map.mp hq with ⟨p, hp, rfl⟩
    have h2 := List.mem_filter.mp hp
    exact ⟨List.mem_map.mpr ⟨p, h2.1, rfl⟩, of_decide_eq_true h2.2⟩
  · rintro ⟨hq, hne⟩
    rcases List.mem_map.mp hq with ⟨p, hp, rfl⟩
    exact List.mem_map.mpr ⟨p, List.mem_filter.mpr ⟨hp, decide_eq_true hne⟩, rfl⟩

theorem keys_update_eq (pureD : List (Int × KB)) (v : Int) (clause : Clause) :
    (pureD.map (fun p => if p.1 = v then (p.1, sadd p.2 clause) else p)).map Prod.fst
      = pureD.map Prod.fst := by
  rw [List.map_map]
  apply List.map_congr_left
  intro p _
  simp only [Function.comp_apply]
  by_cases h : p.1 = v
  · rw [if_pos h]
  · rw [if_neg h]

theorem keys_filter_nodup {pureD : List (Int × KB)} {v : Int}
    (h : (pureD.map Prod.fst).Nodup) :
    ((pureD.filter (fun p => p.1 ≠ -v)).map Prod.fst).Nodup :=
  List.Nodup.sublist (List.Sublist.map Prod.fst (List.filter_sublist pureD)) h

/-- One occurrence preserves the recording invariant. -/
theorem plaStep_inv {seen : List Int} {st : List Nat × List (Int × KB)}
    {clause : Clause} {v : Int} (hv0 : v ≠ 0) (hinv : PlaInv seen st) :
    PlaInv (seen ++ [v]) (plaStep clause st v) := by
  obtain ⟨hK, hS, hN⟩ := hinv
  unfold plaStep
  by_cases h1 : v.natAbs ∈ st.1
  · rw [if_pos h1]
    refine ⟨?_, ?_, hN⟩
    · intro p hp
      obtain ⟨hp1, hp2, hp3⟩ := hK p hp
      refine ⟨List.mem_append_left _ hp1, ?_, hp3⟩
      intro hmem
      rcases List.mem_append.mp hmem with h2 | h2
      · exact hp2 h2
      · rcases List.mem_singleton.mp h2 with h3
        have h4 : p.natAbs = v.natAbs := by omega
        rw [h4] at hp3
        exact hp3 h1
    · intro w hw
      rcases List.mem_append.mp hw with h2 | h2
      · exact hS w h2
      · rcases List.mem_singleton.mp h2 with rfl
        exact Or.inl h1
  rw [if_neg h1]
  by_cases h2 : (st.2.find? (fun p => p.1 = -v)).isSome = true
  · rw [if_pos h2]
    have hnegv : -v ∈ st.2.map Prod.fst := find?_key_isSome.mp h2
    have hvnot : v ∉ st.2.map Prod.fst := by
      intro hvk
      have hx1 := hK v hvk
      have hx2 := hK (-v) hnegv
      rw [neg_neg] at hx2
      exact hx2.2.1 hx1.1
    refine ⟨?_, ?_, keys_filter_nodup hN⟩
    · intro q hq
      obtain ⟨hq1, hqne⟩ := keys_filter_mem.mp hq
      obtain ⟨hp1, hp2, hp3⟩ := hK q hq1
      refine ⟨List.mem_append_left _ hp1, ?_, ?_⟩
      · intro hmem
        rcases List.mem_append.mp hmem with h3 | h3
        · exact hp2 h3
        · rcases List.mem_singleton.mp h3 with h4
          exact hqne (by omega)
      · intro hmem
        rcases mem_sadd.mp hmem with h3 | h3
        · exact hp3 h3
        · have : q = v ∨ q = -v := Int.natAbs_eq_natAbs_iff.mp h3
          rcases this with rfl | rfl
          · exact hvnot hq1
          · exact hqne rfl
    · intro w hw
      rcases List.mem_append.mp hw with h3 | h3
      · rcases hS w h3 with h4 | h4 | h4
        · exact Or.inl (subset_sadd _ _ _ h4)
        · by_cases h5 : w = -v
          · refine Or.inl ?_
            rw [h5, Int.natAbs_neg]
            exact self_mem_sadd st.1 v.natAbs
          · exact Or.inr (Or.inl (keys_filter_mem.mpr ⟨h4, h5⟩))
        · by_cases h5 : -w = -v
          · refine Or.inl ?_
            rw [show w = v by omega]
            exact self_mem_sadd st.1 v.natAbs
          · exact Or.inr (Or.inr (keys_filter_mem.mpr ⟨h4, h5⟩))
      · rcases List.mem_singleton.mp h3 with rfl
        exact Or.inl (self_mem_sadd st.1 w.natAbs)
  rw [if_neg h2]
  have hnegv : -v ∉ st.2.map Prod.fst := fun hc => h2 (find?_key_isSome.mpr hc)
  by_cases h3 : (st.2.find? (fun p => p.1 = v)).isSome = true
  · rw [if_pos h3]
    have hvk : v ∈ st.2.map Prod.fst := find?_key_isSome.mp h3
    rw [PlaInv, keys_update_eq]
    refine ⟨?_, ?_, hN⟩
    · intro p hp
      obtain ⟨hp1, hp2, hp3⟩ := hK p hp
      refine ⟨List.mem_append_left _ hp1, ?_, hp3⟩
      intro hmem
      rcases List.mem_append.mp hmem with h4 | h4
      · exact hp2 h4
      · rcases List.mem_singleton.mp h4 with h5
        refine hnegv ?_
        rw [show -v = p by omega]
        exact hp
    · intro w hw
      rcases List.mem_append.mp hw with h4 | h4
      · exact hS w h4
      · rcases List.mem_singleton.mp h4 with rfl
        exact Or.inr (Or.inl hvk)
  · rw [if_neg h3]
    have hvnot : v ∉ st.2.map Prod.fst := fun hc => h3 (find?_key_isSome.mpr hc)
    have hkeys : (st.2 ++ [(v, [clause])]).map Prod.fst = st.2.map Prod.fst ++ [v] := by
      rw [List.map_append]; rfl
    refine ⟨?_, ?_, ?_⟩
    · intro p hp
      rw [show (st.1, st.2 ++ [(v, [clause])]).2 = st.2 ++ [(v, [clause])] from rfl,
        hkeys] at hp
      rcases List.mem_append.mp hp with hp1 | hp1
      · obtain ⟨hq1, hq2, hq3⟩ := hK p hp1
        refine ⟨List.mem_append_left _ hq1, ?_, hq3⟩
        intro hmem
        rcases List.mem_append.mp hmem with h4 | h4
        · exact hq2 h4
        · rcases List.mem_singleton.mp h4 with h5
          refine hnegv ?_
          rw [show -v = p by omega]
          exact hp1
      · rcases List.mem_singleton.mp hp1 with rfl
        refine ⟨List.mem_append_right _ (List.mem_singleton.mpr rfl), ?_, h1⟩
        intro hmem
        rcases List.mem_append.mp hmem with h4 | h4
        · rcases hS (-p) h4 with h5 | h5 | h5
          · rw [Int.natAbs_neg] at h5
            exact h1 h5
          · exact hnegv h5
          · rw [neg_neg] at h5
            exact hvnot h5
        · rcases List.mem_singleton.mp h4 with h5
          omega
    · intro w hw
      rw [show (st.1, st.2 ++ [(v, [clause])]).2 = st.2 ++ [(v, [clause])] from rfl, hkeys]
      rcases List.mem_append.mp hw with h4 | h4
      · rcases hS w h4 with h5 | h5 | h5
        · exact Or.inl h5
        · exact Or.inr (Or.inl (List.mem_append_left _ h5))
        · exact Or.inr (Or.inr (List.mem_append_left _ h5))
      · rcases List.mem_singleton.mp h4 with rfl
        exact Or.inr (Or.inl (List.mem_append_right _ (List.mem_singleton.mpr rfl)))
    · rw [show (st.1, st.2 ++ [(v, [clause])]).2 = st.2 ++ [(v, [clause])] from rfl, hkeys]
      rw [List.nodup_append]
      exact ⟨hN, List.nodup_singleton v, by
        intro q hq hq2
        rcases List.mem_singleton.mp hq2 with rfl
        exact hvnot hq⟩

theorem plaOccs_inv : ∀ (occs : List (Clause × Int)) (seen : List Int)
    (st : List Nat × List (Int × KB)),
    (∀ p ∈ occs, p.2 ≠ 0) → PlaInv seen st →
    PlaInv (seen ++ occs.map Prod.snd) (plaOccs occs st) := by
  intro occs
  induction occs with
  | nil => intro seen st _ hinv; simpa using hinv
  | cons p ps ih =>
      intro seen st hz hinv
      have h2 := @plaStep_inv seen st p.1 p.2 (hz p (List.mem_cons_self p ps)) hinv
      have h3 := ih (seen ++ [p.2]) (plaStep p.1 st p.2)
        (fun q hq => hz q (List.mem_cons_of_mem p hq)) h2
      rw [List.append_assoc] at h3
      exact h3

/-- The keys surviving the recording pass of `pure_literal_assign` on a
zero-free kb are exactly pure: each occurs in the kb while its complement
does not, no key repeats and no two keys conflict. -/
theorem plaScan_keys {kb : KB} (hz : ZeroFreeKB kb) :
    (∀ p ∈ (plaScan kb).2.map Prod.fst, p ∈ kb.flatten ∧ -p ∉ kb.flatten) ∧
    ((plaScan kb).2.map Prod.fst).Nodup ∧
    (∀ p ∈ (plaScan kb).2.map Prod.fst, -p ∉ (plaScan kb).2.map Prod.fst) := by
  have hfold : plaScan kb = plaOccs (occPairs kb) ([], []) := plaClauses_eq_occs kb _
  have hstart : PlaInv [] ([], []) := by
    refine ⟨?_, ?_, List.nodup_nil⟩
    · intro p hp; cases hp
    · intro v hv; cases hv
  have hinv := plaOccs_inv (occPairs kb) [] ([], [])
    (fun p hp => hz p.2 (by
      obtain ⟨h1, h2⟩ := occPairs_mem kb p hp
      exact List.mem_flatten.mpr ⟨p.1, h1, h2⟩)) hstart
  rw [List.nil_append, occPairs_snd, ← hfold] at hinv
  obtain ⟨hK, _, hN⟩ := hinv
  refine ⟨fun p hp => ⟨(hK p hp).1, (hK p hp).2.1⟩, hN, ?_⟩
  intro p hp hnp
  exact (hK p hp).2.1 (hK (-p) hnp).1

end SatPy

namespace SatPy

theorem mem_addKeys : ∀ (ps : List (Int × KB)) (lits : Lits) (L : Int),
    L ∈ addKeys ps lits ↔ L ∈ lits ∨ L ∈ ps.map Prod.fst := by
  intro ps
  induction ps with
  | nil => intro lits L; simp [addKeys]
  | cons p ps ih =>
      intro lits L
      rw [show addKeys (p :: ps) lits = addKeys ps (sadd lits p.1) from rfl, ih, mem_sadd]
      simp only [List.map_cons, List.mem_cons]
      tauto

theorem pla_fst (kb : KB) (lits : Lits) : (pure_literal_assign kb lits).1 = kb := rfl

theorem pla_snd (kb : KB) (lits : Lits) :
    (pure_literal_assign kb lits).2 = addKeys (plaScan kb).2 lits := rfl

/-- The literal set returned by `pure_literal_assign` on a zero-free kb
whose complements are fully propagated away stays consistent. -/
theorem pla_consistent {kb : KB} {lits : Lits} (hz : ZeroFreeKB kb)
    (hcons : Consistent lits) (hinv : ∀ L ∈ lits, -L ∉ kb.flatten) :
    Consistent (pure_literal_assign kb lits).2 := by
  obtain ⟨hK, _, hNC⟩ := plaScan_keys hz
  rw [pla_snd]
  intro x hx hnx
  rcases (mem_addKeys _ _ x).mp hx with hx2 | hx2
  · rcases (mem_addKeys _ _ (-x)).mp hnx with hnx2 | hnx2
    · exact hcons x hx2 hnx2
    · exact hinv x hx2 (hK (-x) hnx2).1
  · rcases (mem_addKeys _ _ (-x)).mp hnx with hnx2 | hnx2
    · exact (hinv (-x) hnx2) (by rw [neg_neg]; exact (hK x hx2).1)
    · exact hNC x hx2 hnx2

/-- `pure_literal_assign` keeps the fully-propagated invariant: no literal
of the returned assignment set occurs complemented in the (unchanged) kb. -/
theorem pla_inv {kb : KB} {lits : Lits} (hz : ZeroFreeKB kb)
    (hinv : ∀ L ∈ lits, -L ∉ kb.flatten) :
    ∀ L ∈ (pure_literal_assign kb lits).2, -L ∉ kb.flatten := by
  obtain ⟨hK, _, _⟩ := plaScan_keys hz
  rw [pla_snd]
  intro L hL
  rcases (mem_addKeys _ _ L).mp hL with h2 | h2
  · exact hinv L h2
  · exact (hK L h2).2

theorem pla_zero_free {kb : KB} {lits : Lits} (hz : ZeroFreeKB kb)
    (hlz : ∀ L ∈ lits, L ≠ 0) :
    ∀ L ∈ (pure_literal_assign kb lits).2, L ≠ 0 := by
  obtain ⟨hK, _, _⟩ := plaScan_keys hz
  rw [pla_snd]
  intro L hL
  rcases (mem_addKeys _ _ L).mp hL with h2 | h2
  · exact hlz L h2
  · exact hz L (hK L h2).1

theorem pla_lits_grow (kb : KB) (lits : Lits) :
    ∀ L ∈ lits, L ∈ (pure_literal_assign kb lits).2 := by
  rw [pla_snd]
  intro L hL
  exact (mem_addKeys _ _ L).mpr (Or.inl hL)

/-! ### Extending a model over the pure literals -/

/-- Flip one variable so the given literal holds. -/
def setKey (b : Int → Bool) (p : Int) : Int → Bool :=
  fun v => if v = (p.natAbs : Int) then decide (0 < p) else b v

/-- Flip every key's variable so the key holds. -/
def setKeys : List Int → (Int → Bool) → (Int → Bool)
  | [], b => b
  | p :: ps, b => setKeys ps (setKey b p)

theorem setKeys_agrees : ∀ (ks : List Int) (b : Int → Bool) (w : Int),
    (∀ p ∈ ks, (p.natAbs : Int) ≠ w) → setKeys ks b w = b w := by
  intro ks
  induction ks with
  | nil => intro b w _; rfl
  | cons q ks ih =>
      intro b w hp
      rw [show setKeys (q :: ks) b = setKeys ks (setKey b q) from rfl,
        ih (setKey b q) w (fun p hpm => hp p (List.mem_cons_of_mem q hpm))]
      unfold setKey
      rw [if_neg (fun hc => hp q (List.mem_cons_self q ks) hc.symm)]

theorem satLit_congr {a b : Int → Bool} {l : Int}
    (h1 : a l = b l) (h2 : a (-l) = b (-l)) : satLit a l = satLit b l := by
  unfold satLit
  by_cases h : 0 < l
  · rw [if_pos h, if_pos h, h1]
  · rw [if_neg h, if_neg h, h2]

theorem setKey_sat (b : Int → Bool) {p : Int} (hp : p ≠ 0) :
    satLit (setKey b p) p = true := by
  unfold satLit setKey
  by_cases h : 0 < p
  · rw [if_pos h, if_pos (by omega : p = (p.natAbs : Int))]
    exact decide_eq_true h
  · rw [if_neg h, if_pos (by omega : -p = (p.natAbs : Int))]
    rw [decide_eq_false h]
    rfl

theorem setKeys_sat : ∀ (ks : List Int) (b : Int → Bool),
    (∀ p ∈ ks, ∀ q ∈ ks, p ≠ q → p.natAbs ≠ q.natAbs) → ks.Nodup →
    ∀ p ∈ ks, p ≠ 0 → satLit (setKeys ks b) p = true := by
  intro ks
  induction ks with
  | nil => intro b _ _ p hp; cases hp
  | cons q ks ih =>
      intro b hdist hnodup p hp hp0
      have hqnot : q ∉ ks := (List.nodup_cons.mp hnodup).1
      rcases List.mem_cons.mp hp with rfl | hp2
      · rw [show setKeys (p :: ks) b = setKeys ks (setKey b p) from rfl]
        have hagree : ∀ w : Int, (w = p ∨ w = -p) → setKeys ks (setKey b p) w = setKey b p w := by
          intro w hw
          apply setKeys_agrees
          intro r hr
          have hrp : r ≠ p := fun hc => hqnot (hc ▸ hr)
          have hna : r.natAbs ≠ p.natAbs :=
            hdist r (List.mem_cons_of_mem p hr) p (List.mem_cons_self p ks) hrp
          rcases hw with rfl | rfl <;> omega
        rw [satLit_congr (hagree p (Or.inl rfl)) (hagree (-p) (Or.inr rfl))]
        exact setKey_sat b hp0
      · refine ih (setKey b q) ?_ (List.nodup_cons.mp hnodup).2 p hp2 hp0
        intro x hx y hy hxy
        exact hdist x (List.mem_cons_of_mem q hx) y (List.mem_cons_of_mem q hy) hxy

/-- Keys of the recording pass have pairwise distinct variables. -/
theorem plaScan_keys_distinct {kb : KB} (hz : ZeroFreeKB kb) :
    ∀ p ∈ (plaScan kb).2.map Prod.fst, ∀ q ∈ (plaScan kb).2.map Prod.fst,
      p ≠ q → p.natAbs ≠ q.natAbs := by
  obtain ⟨hK, _, hNC⟩ := plaScan_keys hz
  intro p hp q hq hpq hna
  have : q = p ∨ q = -p := by omega
  rcases this with rfl | rfl
  · exact hpq rfl
  · exact hNC p hp hq

/-- A model of the kb and of the assignment set extends, by flipping only
pure variables, to a model that also satisfies every pure literal the pass
records — the semantic content of the pure literal rule. -/
theorem pla_model_extend {kb : KB} {lits : Lits} (a : Int → Bool)
    (hz : ZeroFreeKB kb) (hinv : ∀ L ∈ lits, -L ∉ kb.flatten)
    (hkb : ∀ c ∈ kb, SatClause a c) (hlits : ∀ L ∈ lits, satLit a L = true) :
    ∃ a2 : Int → Bool, (∀ c ∈ kb, SatClause a2 c) ∧
      (∀ L ∈ (pure_literal_assign kb lits).2, satLit a2 L = true) := by
  obtain ⟨hK, hN, hNC⟩ := plaScan_keys hz
  have hdist := plaScan_keys_distinct hz
  set ks := (plaScan kb).2.map Prod.fst with hks
  refine ⟨setKeys ks a, ?_, ?_⟩
  · intro c hc
    obtain ⟨l, hl, hsat⟩ := hkb c hc
    have hlkb : l ∈ kb.flatten := List.mem_flatten.mpr ⟨c, hc, hl⟩
    by_cases hkey : ∃ p ∈ ks, p.natAbs = l.natAbs
    · obtain ⟨p, hp, hpl⟩ := hkey
      have : l = p ∨ l = -p := by omega
      rcases this with rfl | rfl
      · exact ⟨l, hl, setKeys_sat ks a hdist hN l hp (hz l hlkb)⟩
      · exact absurd hlkb ((neg_neg p) ▸ (hK p hp).2)
    · push_neg at hkey
      refine ⟨l, hl, ?_⟩
      have hagree : ∀ w : Int, (w = l ∨ w = -l) → setKeys ks a w = a w := by
        intro w hw
        apply setKeys_agrees
        intro r hr
        have hna : r.natAbs ≠ l.natAbs := hkey r hr
        rcases hw with rfl | rfl <;> omega
      rw [satLit_congr (hagree l (Or.inl rfl)) (hagree (-l) (Or.inr rfl))]
      exact hsat
  · intro L hL
    rcases (mem_addKeys _ _ L).mp ((pla_snd kb lits) ▸ hL) with h2 | h2
    · by_cases hkey : ∃ p ∈ ks, p.natAbs = L.natAbs
      · obtain ⟨p, hp, hpl⟩ := hkey
        have : L = p ∨ L = -p := by omega
        rcases this with rfl | rfl
        · exact setKeys_sat ks a hdist hN L hp (hz L (hK L hp).1)
        · exact absurd ((hK p hp).1) (by rw [← neg_neg p]; exact hinv (-p) h2)
      · push_neg at hkey
        have hagree : ∀ w : Int, (w = L ∨ w = -L) → setKeys ks a w = a w := by
          intro w hw
          apply setKeys_agrees
          intro r hr
          have hna : r.natAbs ≠ L.natAbs := hkey r hr
          rcases hw with rfl | rfl <;> omega
        rw [satLit_congr (hagree L (Or.inl rfl)) (hagree (-L) (Or.inr rfl))]
        exact hlits L h2
    · exact setKeys_sat ks a hdist hN L h2 (hz L (hK L h2).1)

end SatPy

namespace SatPy

/-- One-step unfolding of the embedded `dpll_helper` (the let-bound pair of
`pure_literal_assign` projected; its kb component is the input kb itself). -/
theorem dpllHelperLoop_succ (fuel : Nat) (kb : KB) (lits : Lits) :
    dpllHelperLoop (fuel + 1) kb lits =
      if kb = [] then some (some (pure_literal_assign kb lits).2)
      else
        match chooseVar kb with
        | none => none
        | some var =>
            match unit_propogate var kb (pure_literal_assign kb lits).2 with
            | some r =>
                match dpllHelperLoop fuel r.1 r.2 with
                | none => none
                | some (some s) => some (some s)
                | some none =>
                    match unit_propogate (-var) kb (pure_literal_assign kb lits).2 with
                    | some r2 => dpllHelperLoop fuel r2.1 r2.2
                    | none => some none
            | none =>
                match unit_propogate (-var) kb (pure_literal_assign kb lits).2 with
                | some r2 => dpllHelperLoop fuel r2.1 r2.2
                | none => some none := rfl

theorem chooseVar_mem {kb : KB} {var : Int} (h : chooseVar kb = some var) :
    ∃ c ∈ kb, var ∈ c := by
  match kb, h with
  | c :: rest, h =>
      match c, h with
      | v :: vs, h =>
          refine ⟨v :: vs, List.mem_cons_self _ _, ?_⟩
          have : var = v := by
            have h2 : (v :: vs).head? = some var := h
            simpa using h2.symm
          rw [this]
          exact List.mem_cons_self v vs

theorem chooseVar_isSome {kb : KB} (hne : kb ≠ []) (hnonempty : ∀ c ∈ kb, c ≠ []) :
    ∃ var, chooseVar kb = some var := by
  match kb with
  | c :: rest =>
      match c, hnonempty c (List.mem_cons_self c rest) with
      | v :: vs, _ => exact ⟨v, rfl⟩

/-- Propagating a literal that occurs in the kb strictly shrinks the set of
variables of the kb — the spec's termination argument. -/
theorem up_vars_decrease {var : Int} {kb : KB} {lits : Lits} {kb2 : KB} {lits2 : Lits}
    (h : unit_propogate var kb lits = some (kb2, lits2))
    (hocc : var ∈ kb.flatten ∨ -var ∈ kb.flatten) :
    (varsN kb2).card < (varsN kb).card := by
  obtain ⟨_, _, hshrink, _, _, _, _, _⟩ := unit_propogate_out h
  obtain ⟨helim1, helim2⟩ := unit_propogate_var_eliminated h
  have hsub : varsN kb2 ⊆ varsN kb := by
    intro a ha
    rcases mem_varsN.mp ha with ⟨l, hl, rfl⟩
    exact mem_varsN.mpr ⟨l, hshrink l hl, rfl⟩
  have hmem : var.natAbs ∈ varsN kb := by
    rcases hocc with h2 | h2
    · exact mem_varsN.mpr ⟨var, h2, rfl⟩
    · exact mem_varsN.mpr ⟨-var, h2, Int.natAbs_neg var⟩
  have hnot : var.natAbs ∉ varsN kb2 := by
    intro hc
    rcases mem_varsN.mp hc with ⟨l, hl, hll⟩
    have : l = var ∨ l = -var := by omega
    rcases this with rfl | rfl
    · exact helim1 hl
    · exact helim2 hl
  exact Finset.card_lt_card (Finset.ssubset_iff_of_subset hsub |>.mpr ⟨var.natAbs, hmem, hnot⟩)

/-- The recursion of `dpll_helper` is defined whenever its fuel exceeds the
number of distinct variables of the (empty-clause-free) kb: each recursive
call eliminates the branching variable from all surviving clauses. -/
theorem dpllHelperLoop_fuel_enough : ∀ (fuel : Nat) (kb : KB) (lits : Lits),
    (∀ c ∈ kb, c ≠ []) → (varsN kb).card < fuel →
    dpllHelperLoop fuel kb lits ≠ none := by
  intro fuel
  induction fuel with
  | zero => intro kb lits _ h; omega
  | succ fuel ih =>
      intro kb lits hnonempty hcard
      rw [dpllHelperLoop_succ]
      by_cases hkb : kb = []
      · rw [if_pos hkb]; exact Option.some_ne_none _
      rw [if_neg hkb]
      obtain ⟨var, hvar⟩ := chooseVar_isSome hkb hnonempty
      rw [hvar]
      dsimp only
      obtain ⟨c0, hc0, hvc0⟩ := chooseVar_mem hvar
      have hvocc : var ∈ kb.flatten := List.mem_flatten.mpr ⟨c0, hc0, hvc0⟩
      have hneg : ∀ (r2 : KB × Lits),
          unit_propogate (-var) kb (pure_literal_assign kb lits).2 = some r2 →
          dpllHelperLoop fuel r2.1 r2.2 ≠ none := by
        intro r2 h2
        refine ih r2.1 r2.2 ?_ ?_
        · exact (unit_propogate_out h2).2.2.2.2.1 hnonempty
        · have := up_vars_decrease h2 (Or.inr (by rw [neg_neg]; exact hvocc))
          omega
      rcases hpos : unit_propogate var kb (pure_literal_assign kb lits).2 with _ | r
      · dsimp only
        rcases hnegr : unit_propogate (-var) kb (pure_literal_assign kb lits).2 with _ | r2
        · exact Option.some_ne_none _
        · exact hneg r2 hnegr
      · dsimp only
        have hrec : dpllHelperLoop fuel r.1 r.2 ≠ none := by
          refine ih r.1 r.2 ?_ ?_
          · exact (unit_propogate_out hpos).2.2.2.2.1 hnonempty
          · have := up_vars_decrease hpos (Or.inl hvocc)
            omega
        rcases hrecv : dpllHelperLoop fuel r.1 r.2 with _ | (_ | s)
        · exact absurd hrecv hrec
        · dsimp only
          rcases hnegr : unit_propogate (-var) kb (pure_literal_assign kb lits).2 with _ | r2
          · exact Option.some_ne_none _
          · exact hneg r2 hnegr
        · exact Option.some_ne_none _

end SatPy

namespace SatPy

/-- Whenever the embedded `dpll_helper` reports SAT, the returned set
contains the input literals and satisfies every input clause directly. -/
theorem dpllHelperLoop_trace : ∀ (fuel : Nat) (kb : KB) (lits : Lits) (S : Lits),
    dpllHelperLoop fuel kb lits = some (some S) →
    (∀ L ∈ lits, L ∈ S) ∧ (∀ c ∈ kb, ∃ l ∈ c, l ∈ S) := by
  intro fuel
  induction fuel with
  | zero => intro kb lits S h; cases h
  | succ fuel ih =>
      intro kb lits S h
      rw [dpllHelperLoop_succ] at h
      have hstep : ∀ (w : Int) (r : KB × Lits),
          unit_propogate w kb (pure_literal_assign kb lits).2 = some r →
          dpllHelperLoop fuel r.1 r.2 = some (some S) →
          (∀ L ∈ lits, L ∈ S) ∧ (∀ c ∈ kb, ∃ l ∈ c, l ∈ S) := by
        intro w r hup hrec
        obtain ⟨hS1, hS2⟩ := ih r.1 r.2 S hrec
        obtain ⟨hU1, _, _, _, _, _, _, hU8⟩ := unit_propogate_out hup
        constructor
        · intro L hL
          exact hS1 L (hU1 L (pla_lits_grow kb lits L hL))
        · intro c hc
          rcases hU8 c hc with ⟨l, hlc, hl2⟩ | ⟨d, hd, hsub⟩
          · exact ⟨l, hlc, hS1 l hl2⟩
          · obtain ⟨l, hld, hlS⟩ := hS2 d hd
            exact ⟨l, hsub l hld, hlS⟩
      by_cases hkb : kb = []
      · rw [if_pos hkb] at h
        simp only [Option.some.injEq] at h
        constructor
        · intro L hL
          rw [← h]
          exact pla_lits_grow kb lits L hL
        · intro c hc
          rw [hkb] at hc
          cases hc
      rw [if_neg hkb] at h
      rcases hcv : chooseVar kb with _ | var
      · rw [hcv] at h; cases h
      rw [hcv] at h
      dsimp only at h
      rcases hpos : unit_propogate var kb (pure_literal_assign kb lits).2 with _ | r
      · rw [hpos] at h
        dsimp only at h
        rcases hnegr : unit_propogate (-var) kb (pure_literal_assign kb lits).2 with _ | r2
        · rw [hnegr] at h; cases h
        · rw [hnegr] at h
          exact hstep (-var) r2 hnegr h
      · rw [hpos] at h
        dsimp only at h
        rcases hrec : dpllHelperLoop fuel r.1 r.2 with _ | (_ | s)
        · rw [hrec] at h; cases h
        · rw [hrec] at h
          dsimp only at h
          rcases hnegr : unit_propogate (-var) kb (pure_literal_assign kb lits).2 with _ | r2
          · rw [hnegr] at h; cases h
          · rw [hnegr] at h
            exact hstep (-var) r2 hnegr h
        · rw [hrec] at h
          simp only [Option.some.injEq] at h
          exact hstep var r hpos (by rw [hrec, h])

/-- Whenever the embedded `dpll_helper` reports SAT from a state satisfying
the solver's invariants, the returned assignment set is consistent. -/
theorem dpllHelperLoop_consistent : ∀ (fuel : Nat) (kb : KB) (lits : Lits) (S : Lits),
    ZeroFreeKB kb → (∀ L ∈ lits, L ≠ 0) → Consistent lits →
    (∀ L ∈ lits, -L ∉ kb.flatten) →
    dpllHelperLoop fuel kb lits = some (some S) → Consistent S := by
  intro fuel
  induction fuel with
  | zero => intro kb lits S _ _ _ _ h; cases h
  | succ fuel ih =>
      intro kb lits S hz hlz hcons hinv h
      rw [dpllHelperLoop_succ] at h
      have hplaC : Consistent (pure_literal_assign kb lits).2 := pla_consistent hz hcons hinv
      have hplaZ : ∀ L ∈ (pure_literal_assign kb lits).2, L ≠ 0 := pla_zero_free hz hlz
      have hplaI : ∀ L ∈ (pure_literal_assign kb lits).2, -L ∉ kb.flatten := pla_inv hz hinv
      have hstep : ∀ (w : Int) (r : KB × Lits), w ≠ 0 →
          unit_propogate w kb (pure_literal_assign kb lits).2 = some r →
          dpllHelperLoop fuel r.1 r.2 = some (some S) → Consistent S := by
        intro w r hw0 hup hrec
        obtain ⟨_, _, hU3, hU4, _, _, hU7, _⟩ := unit_propogate_out hup
        refine ih r.1 r.2 S ?_ ?_ (hU7 hplaC) (unit_propogate_inv hup hplaI) hrec
        · intro l hl
          exact hz l (hU3 l hl)
        · intro L hL
          rcases hU4 L hL with rfl | hL2 | hL2
          · exact hw0
          · exact hplaZ L hL2
          · exact hz L hL2
      by_cases hkb : kb = []
      · rw [if_pos hkb] at h
        simp only [Option.some.injEq] at h
        rw [← h]
        exact hplaC
      rw [if_neg hkb] at h
      rcases hcv : chooseVar kb with _ | var
      · rw [hcv] at h; cases h
      rw [hcv] at h
      dsimp only at h
      obtain ⟨c0, hc0, hvc0⟩ := chooseVar_mem hcv
      have hv0 : var ≠ 0 := hz var (List.mem_flatten.mpr ⟨c0, hc0, hvc0⟩)
      rcases hpos : unit_propogate var kb (pure_literal_assign kb lits).2 with _ | r
      · rw [hpos] at h
        dsimp only at h
        rcases hnegr : unit_propogate (-var) kb (pure_literal_assign kb lits).2 with _ | r2
        · rw [hnegr] at h; cases h
        · rw [hnegr] at h
          exact hstep (-var) r2 (by omega) hnegr h
      · rw [hpos] at h
        dsimp only at h
        rcases hrec : dpllHelperLoop fuel r.1 r.2 with _ | (_ | s)
        · rw [hrec] at h; cases h
        · rw [hrec] at h
          dsimp only at h
          rcases hnegr : unit_propogate (-var) kb (pure_literal_assign kb lits).2 with _ | r2
          · rw [hnegr] at h; cases h
          · rw [hnegr] at h
            exact hstep (-var) r2 (by omega) hnegr h
        · rw [hrec] at h
          simp only [Option.some.injEq] at h
          exact hstep var r hv0 hpos (by rw [hrec, h])

/-- Whenever a model exists for the kb together with the assignment set,
the embedded `dpll_helper` — given the depth bound as fuel — reports SAT. -/
theorem dpllHelperLoop_complete : ∀ (fuel : Nat) (kb : KB) (lits : Lits) (a : Int → Bool),
    ZeroFreeKB kb → (∀ L ∈ lits, L ≠ 0) → (∀ L ∈ lits, -L ∉ kb.flatten) →
    (∀ c ∈ kb, SatClause a c) → (∀ L ∈ lits, satLit a L = true) →
    (varsN kb).card < fuel →
    ∃ S, dpllHelperLoop fuel kb lits = some (some S) := by
  intro fuel
  induction fuel with
  | zero => intro kb lits a _ _ _ _ _ h; omega
  | succ fuel ih =>
      intro kb lits a hz hlz hinv hkbsat hlitsat hcard
      rw [dpllHelperLoop_succ]
      by_cases hkb : kb = []
      · rw [if_pos hkb]
        exact ⟨(pure_literal_assign kb lits).2, rfl⟩
      rw [if_neg hkb]
      obtain ⟨a2, ha2kb, ha2lits⟩ := pla_model_extend a hz hinv hkbsat hlitsat
      have hplaZ : ∀ L ∈ (pure_literal_assign kb lits).2, L ≠ 0 := pla_zero_free hz hlz
      have hplaI : ∀ L ∈ (pure_literal_assign kb lits).2, -L ∉ kb.flatten := pla_inv hz hinv
      have hne : ∀ c ∈ kb, c ≠ [] := by
        intro c hc hceq
        rcases hkbsat c hc with ⟨l, hl, _⟩
        rw [hceq] at hl
        cases hl
      obtain ⟨var, hcv⟩ := chooseVar_isSome hkb hne
      rw [hcv]
      dsimp only
      obtain ⟨c0, hc0, hvc0⟩ := chooseVar_mem hcv
      have hvocc : var ∈ kb.flatten := List.mem_flatten.mpr ⟨c0, hc0, hvc0⟩
      have hv0 : var ≠ 0 := hz var hvocc
      rcases satLit_total a2 hv0 with hsvar | hsnegvar
      · -- the model satisfies the branching literal positively
        obtain ⟨kb2, lits2, hup, hm1, hm2, hm3, hm4⟩ :=
          unit_propogate_model a2 hv0 hsvar ha2kb ha2lits hz hplaZ
        have hcard2 : (varsN kb2).card < fuel := by
          have := up_vars_decrease hup (Or.inl hvocc)
          omega
        obtain ⟨S, hrec⟩ := ih kb2 lits2 a2 hm3 hm4
          (unit_propogate_inv hup hplaI) hm1 hm2 hcard2
        rw [hup]
        dsimp only
        rw [hrec]
        exact ⟨S, rfl⟩
      · -- the model satisfies the complement of the branching literal
        have hnv0 : -var ≠ 0 := by omega
        obtain ⟨kb3, lits3, hupn, hn1, hn2, hn3, hn4⟩ :=
          unit_propogate_model a2 hnv0 hsnegvar ha2kb ha2lits hz hplaZ
        have hcard3 : (varsN kb3).card < fuel := by
          have := up_vars_decrease hupn (Or.inr (by rw [neg_neg]; exact hvocc))
          omega
        obtain ⟨S, hrecn⟩ := ih kb3 lits3 a2 hn3 hn4
          (unit_propogate_inv hupn hplaI) hn1 hn2 hcard3
        rcases hpos : unit_propogate var kb (pure_literal_assign kb lits).2 with _ | r
        · dsimp only
          rw [hupn]
          dsimp only
          rw [hrecn]
          exact ⟨S, rfl⟩
        · dsimp only
          have hrne : dpllHelperLoop fuel r.1 r.2 ≠ none :=
            dpllHelperLoop_fuel_enough fuel r.1 r.2
              ((unit_propogate_out hpos).2.2.2.2.1 hne)
              (by have := up_vars_decrease hpos (Or.inl hvocc); omega)
          rcases hrec : dpllHelperLoop fuel r.1 r.2 with _ | (_ | s)
          · exact absurd hrec hrne
          · dsimp only
            rw [hupn]
            dsimp only
            rw [hrecn]
            exact ⟨S, rfl⟩
          · exact ⟨s, rfl⟩

end SatPy

namespace SatPy

/-- Structural facts of the clause-classification loop of `dpll`
(lines 370-379): kept clauses have at least two literals and collected
units come from unit clauses; every input clause is kept or collected. -/
theorem dpllScan_out : ∀ (rest : List Clause) (newKb : KB) (units : List Int)
    (kbO : KB) (unitsO : List Int),
    dpllScan rest newKb units = some (kbO, unitsO) →
    ((∀ d ∈ newKb, d ∈ kbO) ∧
     (∀ d ∈ kbO, d ∈ newKb ∨ (d ∈ rest ∧ 2 ≤ d.length)) ∧
     (∀ u ∈ units, u ∈ unitsO) ∧
     (∀ u ∈ unitsO, u ∈ units ∨ [u] ∈ rest) ∧
     (∀ c ∈ rest, c ∈ kbO ∨ ∃ v, c = [v] ∧ v ∈ unitsO)) := by
  intro rest
  induction rest with
  | nil =>
      intro newKb units kbO unitsO h
      simp only [dpllScan, Option.some.injEq, Prod.mk.injEq] at h
      obtain ⟨rfl, rfl⟩ := h
      exact ⟨fun d hd => hd, fun d hd => Or.inl hd, fun u hu => hu,
        fun u hu => Or.inl hu, fun c hc => absurd hc (List.not_mem_nil c)⟩
  | cons c rest ih =>
      intro newKb units kbO unitsO h
      match c, h with
      | [], h => cases h
      | [v], h =>
          rw [show dpllScan ([v] :: rest) newKb units
              = if -v ∈ units then none else dpllScan rest newKb (sadd units v) from rfl] at h
          by_cases hneg : -v ∈ units
          · rw [if_pos hneg] at h; cases h
          rw [if_neg hneg] at h
          obtain ⟨hB1, hB2, hB3, hB4, hB5⟩ := ih newKb (sadd units v) kbO unitsO h
          refine ⟨hB1, ?_, ?_, ?_, ?_⟩
          · intro d hd
            rcases hB2 d hd with h2 | ⟨h2, h3⟩
            · exact Or.inl h2
            · exact Or.inr ⟨List.mem_cons_of_mem _ h2, h3⟩
          · intro u hu
            exact hB3 u (subset_sadd units v u hu)
          · intro u hu
            rcases hB4 u hu with h2 | h2
            · rcases mem_sadd.mp h2 with h3 | rfl
              · exact Or.inl h3
              · exact Or.inr (List.mem_cons_self _ _)
            · exact Or.inr (List.mem_cons_of_mem _ h2)
          · intro c2 hc2
            rcases List.mem_cons.mp hc2 with rfl | hc3
            · exact Or.inr ⟨v, rfl, hB3 v (self_mem_sadd units v)⟩
            · rcases hB5 c2 hc3 with h2 | ⟨w, hw1, hw2⟩
              · exact Or.inl h2
              · exact Or.inr ⟨w, hw1, hw2⟩
      | v :: w :: cr, h =>
          rw [show dpllScan ((v :: w :: cr) :: rest) newKb units
              = dpllScan rest (sadd newKb (v :: w :: cr)) units from rfl] at h
          obtain ⟨hB1, hB2, hB3, hB4, hB5⟩ := ih (sadd newKb (v :: w :: cr)) units kbO unitsO h
          refine ⟨?_, ?_, hB3, ?_, ?_⟩
          · intro d hd
            exact hB1 d (subset_sadd newKb _ d hd)
          · intro d hd
            rcases hB2 d hd with h2 | ⟨h2, h3⟩
            · rcases mem_sadd.mp h2 with h3 | rfl
              · exact Or.inl h3
              · refine Or.inr ⟨List.mem_cons_self _ _, ?_⟩
                simp only [List.length_cons]
                omega
            · exact Or.inr ⟨List.mem_cons_of_mem _ h2, h3⟩
          · intro u hu
            rcases hB4 u hu with h2 | h2
            · exact Or.inl h2
            · exact Or.inr (List.mem_cons_of_mem _ h2)
          · intro c2 hc2
            rcases List.mem_cons.mp hc2 with hc2eq | hc3
            · refine Or.inl ?_
              rw [hc2eq]
              exact hB1 _ (self_mem_sadd newKb _)
            · rcases hB5 c2 hc3 with h2 | ⟨x, hx1, hx2⟩
              · exact Or.inl h2
              · exact Or.inr ⟨x, hx1, hx2⟩

/-- Under a model of all scanned clauses (zero-free), the classification
loop succeeds and the model satisfies the kept clauses and unit literals. -/
theorem dpllScan_model (a : Int → Bool) : ∀ (rest : List Clause) (newKb : KB)
    (units : List Int),
    (∀ c ∈ rest, SatClause a c) → (∀ c ∈ newKb, SatClause a c) →
    (∀ u ∈ units, satLit a u = true) → (∀ l ∈ rest.flatten, l ≠ 0) →
    ∃ kbO unitsO, dpllScan rest newKb units = some (kbO, unitsO) ∧
      (∀ c ∈ kbO, SatClause a c) ∧ (∀ u ∈ unitsO, satLit a u = true) := by
  intro rest
  induction rest with
  | nil =>
      intro newKb units _ hkb hu _
      exact ⟨newKb, units, rfl, hkb, hu⟩
  | cons c rest ih =>
      intro newKb units hrest hkb hu hz
      have hzr : ∀ l ∈ rest.flatten, l ≠ 0 := by
        intro l hl
        exact hz l (by rw [List.flatten_cons]; exact List.mem_append_right c hl)
      have hrest2 : ∀ d ∈ rest, SatClause a d :=
        fun d hd => hrest d (List.mem_cons_of_mem c hd)
      have hsatc : SatClause a c := hrest c (List.mem_cons_self c rest)
      match c, hsatc with
      | [], hsatc =>
          obtain ⟨l, hl, _⟩ := hsatc
          cases hl
      | [v], hsatc =>
          have hsv : satLit a v = true := by
            obtain ⟨l, hl, hsat⟩ := hsatc
            rcases List.mem_singleton.mp hl with rfl
            exact hsat
          have hv0 : v ≠ 0 := hz v (by simp)
          have hneg : -v ∉ units := by
            intro hc
            have := hu (-v) hc
            rw [satLit_neg a hv0, hsv] at this
            cases this
          rw [show dpllScan ([v] :: rest) newKb units
              = if -v ∈ units then none else dpllScan rest newKb (sadd units v) from rfl,
            if_neg hneg]
          refine ih newKb (sadd units v) hrest2 hkb ?_ hzr
          intro u hu2
          rcases mem_sadd.mp hu2 with h2 | rfl
          · exact hu u h2
          · exact hsv
      | v :: w :: cr, hsatc =>
          rw [show dpllScan ((v :: w :: cr) :: rest) newKb units
              = dpllScan rest (sadd newKb (v :: w :: cr)) units from rfl]
          refine ih (sadd newKb (v :: w :: cr)) units hrest2 ?_ hu hzr
          intro d hd
          rcases mem_sadd.mp hd with h2 | rfl
          · exact hkb d h2
          · exact hsatc

theorem mem_insertSorted : ∀ (l : List Int) (x y : Int),
    y ∈ insertSorted x l ↔ y ∈ l ∨ y = x := by
  intro l
  induction l with
  | nil => intro x y; simp [insertSorted]
  | cons z zs ih =>
      intro x y
      rw [show insertSorted x (z :: zs)
          = if x ≤ z then x :: z :: zs else z :: insertSorted x zs from rfl]
      by_cases h : x ≤ z
      · rw [if_pos h]
        simp only [List.mem_cons]
        tauto
      · rw [if_neg h]
        simp only [List.mem_cons, ih]
        tauto

theorem mem_sortInts : ∀ (l : List Int) (y : Int), y ∈ sortInts l ↔ y ∈ l := by
  intro l
  induction l with
  | nil => intro y; simp [sortInts]
  | cons x xs ih =>
      intro y
      rw [show sortInts (x :: xs) = insertSorted x (sortInts xs) from rfl,
        mem_insertSorted, ih]
      simp only [List.mem_cons]
      tauto

end SatPy

namespace SatPy

/-- Output facts of the initial-unit propagation loop of `dpll`
(lines 381-389). -/
theorem dpllUnits_out : ∀ (us : List Int) (kb : KB) (lits : Lits)
    (kb2 : KB) (lits2 : Lits),
    dpllUnits us kb lits = some (kb2, lits2) →
    ((∀ L ∈ lits, L ∈ lits2) ∧
     (∀ l ∈ kb2.flatten, l ∈ kb.flatten) ∧
     (∀ L ∈ lits2, L ∈ lits ∨ L ∈ us ∨ L ∈ kb.flatten) ∧
     ((∀ c ∈ kb, c ≠ []) → ∀ c ∈ kb2, c ≠ []) ∧
     (Consistent lits → Consistent lits2) ∧
     ((∀ L ∈ lits, -L ∉ kb.flatten) → ∀ L ∈ lits2, -L ∉ kb2.flatten) ∧
     (∀ u ∈ us, u ∈ lits2) ∧
     (∀ c ∈ kb, (∃ l ∈ c, l ∈ lits2) ∨ ∃ d ∈ kb2, ∀ x ∈ d, x ∈ c)) := by
  intro us
  induction us with
  | nil =>
      intro kb lits kb2 lits2 h
      simp only [dpllUnits, Option.some.injEq, Prod.mk.injEq] at h
      obtain ⟨rfl, rfl⟩ := h
      exact ⟨fun L hL => hL, fun l hl => hl, fun L hL => Or.inl hL,
        fun hne => hne, fun hc => hc, fun hinv => hinv,
        fun u hu => absurd hu (List.not_mem_nil u),
        fun c hc => Or.inr ⟨c, hc, fun x hx => hx⟩⟩
  | cons u us ih =>
      intro kb lits kb2 lits2 h
      rw [show dpllUnits (u :: us) kb lits
          = if u ∈ lits then dpllUnits us kb lits
            else if -u ∈ lits then none
            else match unit_propogate u kb lits with
              | none => none
              | some r => dpllUnits us r.1 r.2 from rfl] at h
      by_cases h1 : u ∈ lits
      · rw [if_pos h1] at h
        obtain ⟨hD1, hD2, hD3, hD4, hD5, hD6, hD7, hD8⟩ := ih kb lits kb2 lits2 h
        refine ⟨hD1, hD2, ?_, hD4, hD5, hD6, ?_, hD8⟩
        · intro L hL
          rcases hD3 L hL with h2 | h2 | h2
          · exact Or.inl h2
          · exact Or.inr (Or.inl (List.mem_cons_of_mem u h2))
          · exact Or.inr (Or.inr h2)
        · intro w hw
          rcases List.mem_cons.mp hw with rfl | hw2
          · exact hD1 w h1
          · exact hD7 w hw2
      rw [if_neg h1] at h
      by_cases h2 : -u ∈ lits
      · rw [if_pos h2] at h; cases h
      rw [if_neg h2] at h
      rcases hup : unit_propogate u kb lits with _ | r
      · rw [hup] at h; cases h
      rw [hup] at h
      dsimp only at h
      obtain ⟨hU1, hU2, hU3, hU4, hU5, hU6, hU7, hU8⟩ := unit_propogate_out hup
      obtain ⟨hD1, hD2, hD3, hD4, hD5, hD6, hD7, hD8⟩ := ih r.1 r.2 kb2 lits2 h
      refine ⟨?_, ?_, ?_, ?_, ?_, ?_, ?_, ?_⟩
      · intro L hL
        exact hD1 L (hU1 L hL)
      · intro l hl
        exact hU3 l (hD2 l hl)
      · intro L hL
        rcases hD3 L hL with h3 | h3 | h3
        · rcases hU4 L h3 with rfl | h4 | h4
          · exact Or.inr (Or.inl (List.mem_cons_self L us))
          · exact Or.inl h4
          · exact Or.inr (Or.inr h4)
        · exact Or.inr (Or.inl (List.mem_cons_of_mem u h3))
        · exact Or.inr (Or.inr (hU3 L h3))
      · intro hne
        exact hD4 (hU5 hne)
      · intro hcons
        exact hD5 (hU7 hcons)
      · intro hinv
        exact hD6 (unit_propogate_inv hup hinv)
      · intro w hw
        rcases List.mem_cons.mp hw with rfl | hw2
        · exact hD1 w hU2
        · exact hD7 w hw2
      · intro c hc
        rcases hU8 c hc with ⟨l, hlc, hl2⟩ | ⟨d, hd, hsub⟩
        · exact Or.inl ⟨l, hlc, hD1 l hl2⟩
        · rcases hD8 d hd with ⟨l, hld, hl2⟩ | ⟨d2, hd2, hsub2⟩
          · exact Or.inl ⟨l, hsub l hld, hl2⟩
          · exact Or.inr ⟨d2, hd2, fun x hx => hsub x (hsub2 x hx)⟩

/-- Under a zero-free model of the kb, the literal set and the pending
units, the initial-unit loop of `dpll` succeeds with the model intact. -/
theorem dpllUnits_model (a : Int → Bool) : ∀ (us : List Int) (kb : KB) (lits : Lits),
    (∀ c ∈ kb, SatClause a c) → (∀ L ∈ lits, satLit a L = true) →
    (∀ u ∈ us, satLit a u = true) →
    (∀ l ∈ kb.flatten, l ≠ 0) → (∀ L ∈ lits, L ≠ 0) → (∀ u ∈ us, u ≠ 0) →
    ∃ kb2 lits2, dpllUnits us kb lits = some (kb2, lits2) ∧
      (∀ c ∈ kb2, SatClause a c) ∧ (∀ L ∈ lits2, satLit a L = true) ∧
      (∀ l ∈ kb2.flatten, l ≠ 0) ∧ (∀ L ∈ lits2, L ≠ 0) := by
  intro us
  induction us with
  | nil =>
      intro kb lits hkb hlits _ hz hlz _
      exact ⟨kb, lits, rfl, hkb, hlits, hz, hlz⟩
  | cons u us ih =>
      intro kb lits hkb hlits hus hz hlz husz
      have hu0 : u ≠ 0 := husz u (List.mem_cons_self u us)
      have hsu : satLit a u = true := hus u (List.mem_cons_self u us)
      have hus2 : ∀ w ∈ us, satLit a w = true :=
        fun w hw => hus w (List.mem_cons_of_mem u hw)
      have husz2 : ∀ w ∈ us, w ≠ 0 := fun w hw => husz w (List.mem_cons_of_mem u hw)
      rw [show dpllUnits (u :: us) kb lits
          = if u ∈ lits then dpllUnits us kb lits
            else if -u ∈ lits then none
            else match unit_propogate u kb lits with
              | none => none
              | some r => dpllUnits us r.1 r.2 from rfl]
      by_cases h1 : u ∈ lits
      · rw [if_pos h1]
        exact ih kb lits hkb hlits hus2 hz hlz husz2
      rw [if_neg h1]
      have h2 : -u ∉ lits := by
        intro hc
        have := hlits (-u) hc
        rw [satLit_neg a hu0, hsu] at this
        cases this
      rw [if_neg h2]
      obtain ⟨kb2, lits2, hup, hm1, hm2, hm3, hm4⟩ :=
        unit_propogate_model a hu0 hsu hkb hlits hz hlz
      rw [hup]
      dsimp only
      exact ih kb2 lits2 hm1 hm2 hus2 hm3 hm4 husz2

end SatPy

namespace SatPy

/-- `dpll` always has a defined result: the embedded fuel (the variable
count plus one for the helper, the occurrence count plus two for the unit
propagation loop) is never exhausted. -/
theorem dpll_ne_none : ∀ kb : List Clause, dpll kb ≠ none := by
  intro kb
  rw [dpll]
  by_cases hkb : kb = []
  · rw [if_pos hkb]; exact Option.some_ne_none _
  rw [if_neg hkb]
  rcases hscan : dpllScan kb [] [] with _ | ⟨newKb, units⟩
  · exact Option.some_ne_none _
  dsimp only
  rcases hun : dpllUnits (sortInts units) newKb [] with _ | ⟨kb2, lits⟩
  · exact Option.some_ne_none _
  dsimp only
  obtain ⟨_, hB2, _, _, _⟩ := dpllScan_out kb [] [] newKb units hscan
  have hnewne : ∀ c ∈ newKb, c ≠ [] := by
    intro c hc
    rcases hB2 c hc with h2 | ⟨_, h2⟩
    · cases h2
    · intro he
      rw [he] at h2
      simp at h2
  obtain ⟨_, _, _, hD4, _, _, _, _⟩ := dpllUnits_out (sortInts units) newKb [] kb2 lits hun
  exact dpllHelperLoop_fuel_enough _ kb2 lits (hD4 hnewne) (by omega)

/-- Whenever `dpll` reports SAT, each clause of the original kb holds a
literal of the returned assignment set. -/
theorem dpll_covers : ∀ (kb : List Clause) (S : Lits), dpll kb = some (some S) →
    ∀ c ∈ kb, ∃ l ∈ c, l ∈ S := by
  intro kb S h
  rw [dpll] at h
  by_cases hkb : kb = []
  · intro c hc
    rw [hkb] at hc
    cases hc
  rw [if_neg hkb] at h
  rcases hscan : dpllScan kb [] [] with _ | ⟨newKb, units⟩
  · rw [hscan] at h; simp at h
  rw [hscan] at h
  dsimp only at h
  rcases hun : dpllUnits (sortInts units) newKb [] with _ | ⟨kb2, lits⟩
  · rw [hun] at h; simp at h
  rw [hun] at h
  dsimp only at h
  obtain ⟨hH1, hH2⟩ := dpllHelperLoop_trace _ kb2 lits S h
  obtain ⟨_, _, _, _, hB5⟩ := dpllScan_out kb [] [] newKb units hscan
  obtain ⟨hD1, _, _, _, _, _, hD7, hD8⟩ := dpllUnits_out (sortInts units) newKb [] kb2 lits hun
  intro c hc
  rcases hB5 c hc with h2 | ⟨v, rfl, hv⟩
  · rcases hD8 c h2 with ⟨l, hlc, hl2⟩ | ⟨d, hd, hsub⟩
    · exact ⟨l, hlc, hH1 l hl2⟩
    · obtain ⟨l, hld, hlS⟩ := hH2 d hd
      exact ⟨l, hsub l hld, hlS⟩
  · exact ⟨v, List.mem_singleton.mpr rfl, hH1 v (hD7 v ((mem_sortInts units v).mpr hv))⟩

/-- Whenever `dpll` reports SAT on a zero-free kb, the returned assignment
set is consistent. -/
theorem dpll_consistent : ∀ (kb : List Clause) (S : Lits), ZeroFreeKB kb →
    dpll kb = some (some S) → Consistent S := by
  intro kb S hz h
  rw [dpll] at h
  by_cases hkb : kb = []
  · rw [if_pos hkb] at h
    simp only [Option.some.injEq] at h
    rw [← h]
    intro x hx
    cases hx
  rw [if_neg hkb] at h
  rcases hscan : dpllScan kb [] [] with _ | ⟨newKb, units⟩
  · rw [hscan] at h; simp at h
  rw [hscan] at h
  dsimp only at h
  rcases hun : dpllUnits (sortInts units) newKb [] with _ | ⟨kb2, lits⟩
  · rw [hun] at h; simp at h
  rw [hun] at h
  dsimp only at h
  obtain ⟨_, hB2, _, hB4, _⟩ := dpllScan_out kb [] [] newKb units hscan
  have hnewZ : ∀ l ∈ newKb.flatten, l ≠ 0 := by
    intro l hl
    rcases List.mem_flatten.mp hl with ⟨d, hd, hld⟩
    rcases hB2 d hd with h2 | ⟨h2, _⟩
    · cases h2
    · exact hz l (List.mem_flatten.mpr ⟨d, h2, hld⟩)
  obtain ⟨_, hD2, hD3, _, hD5, hD6, _, _⟩ := dpllUnits_out (sortInts units) newKb [] kb2 lits hun
  have hkb2Z : ZeroFreeKB kb2 := fun l hl => hnewZ l (hD2 l hl)
  have hlitsZ : ∀ L ∈ lits, L ≠ 0 := by
    intro L hL
    rcases hD3 L hL with h2 | h2 | h2
    · cases h2
    · rcases hB4 L ((mem_sortInts units L).mp h2) with h3 | h3
      · cases h3
      · exact hz L (List.mem_flatten.mpr ⟨[L], h3, List.mem_singleton.mpr rfl⟩)
    · exact hnewZ L h2
  have hlitsC : Consistent lits := hD5 (fun x hx => absurd hx (List.not_mem_nil x))
  have hlitsI : ∀ L ∈ lits, -L ∉ kb2.flatten :=
    hD6 (fun L hL => absurd hL (List.not_mem_nil L))
  exact dpllHelperLoop_consistent _ kb2 lits S hkb2Z hlitsZ hlitsC hlitsI h

/-- Soundness: a SAT answer of `dpll` on a zero-free kb yields a genuine
model (make exactly the returned literals true). -/
theorem dpll_sound : ∀ (kb : List Clause) (S : Lits), ZeroFreeKB kb →
    dpll kb = some (some S) → Satisfiable kb := by
  intro kb S hz h
  have hcov := dpll_covers kb S h
  have hcons := dpll_consistent kb S hz h
  refine ⟨fun v => decide (v ∈ S), ?_⟩
  intro c hc
  obtain ⟨l, hlc, hlS⟩ := hcov c hc
  have hl0 : l ≠ 0 := hz l (List.mem_flatten.mpr ⟨c, hc, hlc⟩)
  refine ⟨l, hlc, ?_⟩
  unfold satLit
  by_cases hpos : 0 < l
  · rw [if_pos hpos]
    exact decide_eq_true hlS
  · rw [if_neg hpos]
    have hnot : -l ∉ S := by
      intro hc2
      exact hcons (-l) hc2 (by rw [neg_neg]; exact hlS)
    show (!(decide (-l ∈ S))) = true
    rw [decide_eq_false hnot]
    rfl

/-- Completeness: on a zero-free satisfiable kb, `dpll` reports SAT. -/
theorem dpll_complete : ∀ kb : List Clause, ZeroFreeKB kb → Satisfiable kb →
    ∃ S, dpll kb = some (some S) := by
  intro kb hz hsat
  obtain ⟨a, hsatkb⟩ := hsat
  rw [dpll]
  by_cases hkb : kb = []
  · rw [if_pos hkb]
    exact ⟨[], rfl⟩
  rw [if_neg hkb]
  obtain ⟨newKb, units, hscan, hkbO, hunitsO⟩ :=
    dpllScan_model a kb [] [] hsatkb
      (fun c hc => absurd hc (List.not_mem_nil c))
      (fun u hu => absurd hu (List.not_mem_nil u)) hz
  rw [hscan]
  dsimp only
  obtain ⟨_, hB2, _, hB4, _⟩ := dpllScan_out kb [] [] newKb units hscan
  have hnewZ : ∀ l ∈ newKb.flatten, l ≠ 0 := by
    intro l hl
    rcases List.mem_flatten.mp hl with ⟨d, hd, hld⟩
    rcases hB2 d hd with h2 | ⟨h2, _⟩
    · cases h2
    · exact hz l (List.mem_flatten.mpr ⟨d, h2, hld⟩)
  have hunitsZ : ∀ u ∈ units, u ≠ 0 := by
    intro u hu
    rcases hB4 u hu with h2 | h2
    · cases h2
    · exact hz u (List.mem_flatten.mpr ⟨[u], h2, List.mem_singleton.mpr rfl⟩)
  obtain ⟨kb2, lits, hun, hm1, hm2, hm3, hm4⟩ :=
    dpllUnits_model a (sortInts units) newKb [] hkbO
      (fun L hL => absurd hL (List.not_mem_nil L))
      (fun u hu => hunitsO u ((mem_sortInts units u).mp hu))
      hnewZ
      (fun L hL => absurd hL (List.not_mem_nil L))
      (fun u hu => hunitsZ u ((mem_sortInts units u).mp hu))
  rw [hun]
  dsimp only
  obtain ⟨_, _, _, _, _, hD6, _, _⟩ := dpllUnits_out (sortInts units) newKb [] kb2 lits hun
  have hlitsI : ∀ L ∈ lits, -L ∉ kb2.flatten :=
    hD6 (fun L hL => absurd hL (List.not_mem_nil L))
  exact dpllHelperLoop_complete _ kb2 lits a hm3 hm4 hlitsI hm1 hm2 (by omega)

end SatPy

namespace SatPy

theorem kb_satisfiable_ne_none (kb : List Clause) : kb_satisfiable kb ≠ none := by
  unfold kb_satisfiable
  rcases h : dpll kb with _ | (_ | S)
  · exact absurd h (dpll_ne_none kb)
  · exact Option.some_ne_none _
  · exact Option.some_ne_none _

/-- Claim C2: whenever `dpll` returns an assignment set (SAT), every clause
of the original knowledge base holds at least one literal of that set. -/
theorem C2_dpll_assignment_covers (kb : List Clause) (S : Lits)
    (h : dpll kb = some (some S)) : ∀ c ∈ kb, ∃ l ∈ c, l ∈ S :=
  dpll_covers kb S h

/-- Witness for C2: `dpll({(1,2),(1,3)})` returns `{1,2,3}`, which meets
the clause `(1,2)`. -/
theorem C2_dpll_assignment_covers_witness :
    ∃ l ∈ ([1, 2] : Clause), l ∈ ([1, 2, 3] : Lits) :=
  C2_dpll_assignment_covers [[1, 2], [1, 3]] [1, 2, 3] (by decide) [1, 2] (by decide)

/-- Claim C4: for every finite kb, `dpll` terminates with exactly one of an
assignment set or False — its embedded result is never the undefined
marker; the `dpll_helper` recursion is total at any fuel exceeding the
number of distinct variables of its (empty-clause-free) kb, because every
recursive call eliminates the branching variable from all surviving
clauses; and the `unit_propogate` while loop is total at its
occurrence-count fuel. -/
theorem C4_dpll_terminates :
    (∀ kb : List Clause, dpll kb = some none ∨ ∃ S, dpll kb = some (some S)) ∧
    (∀ (fuel : Nat) (kb : KB) (lits : Lits), (∀ c ∈ kb, c ≠ []) →
      (varsN kb).card < fuel → dpllHelperLoop fuel kb lits ≠ none) ∧
    (∀ (var : Int) (kb : KB) (lits : Lits),
      upLoop (numOcc kb + 2) kb (sadd lits var) [var] ≠ none) := by
  refine ⟨?_, dpllHelperLoop_fuel_enough, ?_⟩
  · intro kb
    rcases h : dpll kb with _ | (_ | S)
    · exact absurd h (dpll_ne_none kb)
    · exact Or.inl rfl
    · exact Or.inr ⟨S, rfl⟩
  · intro var kb lits
    exact upLoop_fuel_enough _ kb (sadd lits var) [var] (by simp)

/-- Witness for C4 at a concrete kb and a concrete helper state. -/
theorem C4_dpll_terminates_witness :
    (dpll [[1, 2], [-1, 2]] = some none ∨ ∃ S, dpll [[1, 2], [-1, 2]] = some (some S)) ∧
      dpllHelperLoop 3 [[1, 2]] [] ≠ none :=
  ⟨C4_dpll_terminates.1 [[1, 2], [-1, 2]],
   C4_dpll_terminates.2.1 3 [[1, 2]] [] (by decide)
     (by show (varsN [[1, 2]]).card < 3; decide)⟩

/-- Claim C7: the assignment sets the solver produces are consistent — the
set `dpll` returns on SAT (for a kb over the spec's nonzero literals), the
literals component of every successful `unit_propogate` on a consistent
input set, and the literals component `pure_literal_assign` returns under
the search's invariants never hold both a literal and its negation. -/
theorem C7_solver_consistency :
    (∀ (kb : List Clause) (S : Lits), ZeroFreeKB kb →
      dpll kb = some (some S) → Consistent S) ∧
    (∀ (var : Int) (kb : KB) (lits : Lits) (kb2 : KB) (lits2 : Lits),
      Consistent lits → unit_propogate var kb lits = some (kb2, lits2) →
      Consistent lits2) ∧
    (∀ (kb : KB) (lits : Lits), ZeroFreeKB kb → Consistent lits →
      (∀ L ∈ lits, -L ∉ kb.flatten) → Consistent (pure_literal_assign kb lits).2) := by
  refine ⟨dpll_consistent, ?_, ?_⟩
  · intro var kb lits kb2 lits2 hcons hup
    exact (unit_propogate_out hup).2.2.2.2.2.2.1 hcons
  · intro kb lits hz hcons hinv
    exact pla_consistent hz hcons hinv

/-- Witness for C7 at concrete solver runs. -/
theorem C7_solver_consistency_witness :
    Consistent ([1, 2, 3] : Lits) ∧ Consistent ([1] : Lits) ∧
      Consistent (pure_literal_assign [[1, 2]] []).2 :=
  ⟨C7_solver_consistency.1 [[1, 2], [1, 3]] [1, 2, 3]
      (by show ∀ l ∈ ([[1, 2], [1, 3]] : List Clause).flatten, l ≠ 0; decide)
      (by decide),
   C7_solver_consistency.2.1 1 [[-1, 2, 3]] [] [[2, 3]] [1]
      (fun x hx => absurd hx (List.not_mem_nil x)) (by decide),
   C7_solver_consistency.2.2 [[1, 2]] []
      (by show ∀ l ∈ ([[1, 2]] : List Clause).flatten, l ≠ 0; decide)
      (fun x hx => absurd hx (List.not_mem_nil x))
      (fun L hL => absurd hL (List.not_mem_nil L))⟩

/-- Claim C9: `test_literal(v, kb)` reports forced-false exactly when the
solver finds kb with the unit clause `(v)` added unsatisfiable, forced-true
exactly when that query is satisfiable but kb with `(-v)` added is not, and
unconstrained exactly when both queries are satisfiable; its result is
always defined. -/
theorem C9_test_literal_decision (var : Int) (kb : List Clause) (hv : var ≠ 0) :
    test_literal var kb ≠ none ∧
    (test_literal var kb = some (some false) ↔
      kb_satisfiable (add_literal_to_kb var kb) = some false) ∧
    (test_literal var kb = some (some true) ↔
      (kb_satisfiable (add_literal_to_kb var kb) = some true ∧
       kb_satisfiable (add_literal_to_kb (-var) kb) = some false)) ∧
    (test_literal var kb = some none ↔
      (kb_satisfiable (add_literal_to_kb var kb) = some true ∧
       kb_satisfiable (add_literal_to_kb (-var) kb) = some true)) := by
  unfold test_literal
  rcases h1 : kb_satisfiable (add_literal_to_kb var kb) with _ | b1
  · exact absurd h1 (kb_satisfiable_ne_none _)
  rcases h2 : kb_satisfiable (add_literal_to_kb (-var) kb) with _ | b2
  · exact absurd h2 (kb_satisfiable_ne_none _)
  cases b1
  · simp
  · cases b2 <;> simp

/-- Witness for C9: the kb `{(1,)}` forces the literal 1 true. -/
theorem C9_test_literal_decision_witness :
    test_literal 1 [[1]] ≠ none ∧
      (test_literal 1 [[1]] = some (some true) ↔
        (kb_satisfiable (add_literal_to_kb 1 [[1]]) = some true ∧
         kb_satisfiable (add_literal_to_kb (-1) [[1]]) = some false)) :=
  ⟨(C9_test_literal_decision 1 [[1]] (by decide)).1,
   (C9_test_literal_decision 1 [[1]] (by decide)).2.2.1⟩

end SatPy

namespace SatPy

/-! ### Equisatisfiability of `convert_kb_to_3sat` (claim C1)

Soundness of the Tseitin-style chain needs no freshness: under any
assignment, if every emitted 3-clause holds then the original clause holds.
Completeness extends a model of the original kb to the auxiliary variables,
which are all strictly greater than `get_max_var_from_kb kb`. -/

/-- `b` agrees with `a` on every positive variable index up to `M` — the
only indices `satLit` can read for a literal of absolute value `≤ M`. -/
def agreeUpTo (M : Int) (a b : Int → Bool) : Prop :=
  ∀ v : Int, 0 < v → v ≤ M → b v = a v

theorem satLit_agree {M : Int} {a b : Int → Bool} {l : Int}
    (hag : agreeUpTo M a b) (h0 : l ≠ 0) (hle : (l.natAbs : Int) ≤ M) :
    satLit b l = satLit a l := by
  unfold satLit
  by_cases h : 0 < l
  · rw [if_pos h, if_pos h, hag l h (by omega)]
  · rw [if_neg h, if_neg h, hag (-l) (by omega) (by omega)]

theorem SatKB_agree {M : Int} {a b : Int → Bool} {kb : KB} (hag : agreeUpTo M a b)
    (hbound : ∀ c ∈ kb, ∀ l ∈ c, l ≠ 0 ∧ (l.natAbs : Int) ≤ M)
    (h : SatKB a kb) : SatKB b kb := by
  intro c hc
  obtain ⟨l, hl, hs⟩ := h c hc
  exact ⟨l, hl, by
    rw [satLit_agree hag (hbound c hc l hl).1 (hbound c hc l hl).2]; exact hs⟩

/-- Extend `a` past `mv - 1`: variable `mv` becomes true, everything above
false. -/
def extTrue (a : Int → Bool) (mv : Int) : Int → Bool :=
  fun v => if v ≤ mv - 1 then a v else if v = mv then true else false

theorem extTrue_agree (a : Int → Bool) (mv : Int) : agreeUpTo (mv - 1) a (extTrue a mv) :=
  fun v _ hv2 => by unfold extTrue; rw [if_pos hv2]

theorem extTrue_mv (a : Int → Bool) (mv : Int) : extTrue a mv mv = true := by
  unfold extTrue
  rw [if_neg (by omega), if_pos rfl]

theorem extTrue_high (a : Int → Bool) (mv : Int) {v : Int} (h : mv < v) :
    extTrue a mv v = false := by
  unfold extTrue
  rw [if_neg (by omega), if_neg (by omega)]

/-- Extend `a` past `mv`: everything above false. -/
def extFalse (a : Int → Bool) (mv : Int) : Int → Bool :=
  fun v => if v ≤ mv then a v else false

theorem extFalse_agree (a : Int → Bool) (mv : Int) : agreeUpTo mv a (extFalse a mv) :=
  fun v _ hv2 => by unfold extFalse; rw [if_pos hv2]

theorem extFalse_high (a : Int → Bool) (mv : Int) {v : Int} (h : mv < v) :
    extFalse a mv v = false := by
  unfold extFalse
  rw [if_neg (by omega)]

/-- Flip one variable index to true. -/
def setTrue (b : Int → Bool) (mv : Int) : Int → Bool :=
  fun v => if v = mv then true else b v

theorem setTrue_mv (b : Int → Bool) (mv : Int) : setTrue b mv mv = true := by
  unfold setTrue
  rw [if_pos rfl]

theorem satLit_setTrue_ne (b : Int → Bool) (mv : Int) {l : Int}
    (h0 : l ≠ 0) (hne : (l.natAbs : Int) ≠ mv) :
    satLit (setTrue b mv) l = satLit b l := by
  unfold satLit setTrue
  by_cases h : 0 < l
  · rw [if_pos h, if_pos h, if_neg (by omega : ¬ l = mv)]
  · rw [if_neg h, if_neg h, if_neg (by omega : ¬ -l = mv)]

/-- If every auxiliary variable of a chain is false, every chain clause is
satisfied through its negated head. -/
theorem chainFalse (b : Int → Bool) (cl : List Int) (mv : Int) (h2 : 2 ≤ cl.length)
    (h0 : 0 < mv)
    (hfalse : ∀ j : Nat, (j : Int) ≤ (cl.length : Int) - 2 → b (mv + (j : Int)) = false) :
    ∀ d ∈ chainClauses mv cl, SatClause b d := by
  intro d hd
  obtain ⟨j, hj, hhead⟩ := chainClauses_head_shape cl mv h2 d hd
  have hjle : (j : Int) ≤ (cl.length : Int) - 2 := by omega
  have hmem : -(mv + (j : Int)) ∈ d := List.mem_of_mem_head? (Option.mem_def.mpr hhead)
  refine ⟨-(mv + (j : Int)), hmem, ?_⟩
  rw [satLit_neg b (by omega : (mv + (j : Int)) ≠ 0)]
  unfold satLit
  rw [if_pos (by omega : (0 : Int) < mv + (j : Int)), hfalse j hjle]
  rfl

/-- Soundness of one chain: under any assignment satisfying every chain
clause, either the chain's entry variable is false or some original literal
of the clause tail is true. -/
theorem chainSound (b : Int → Bool) : ∀ (cl : List Int) (mv : Int), 0 < mv →
    (∀ d ∈ chainClauses mv cl, SatClause b d) →
    satLit b (-mv) = true ∨ ∃ l ∈ cl, satLit b l = true := by
  intro cl
  induction cl with
  | nil =>
      intro mv h0 hall
      obtain ⟨l, hl, hs⟩ := hall (-mv :: []) (List.mem_singleton.mpr rfl)
      rcases List.mem_singleton.mp hl with rfl
      exact Or.inl hs
  | cons x tail ih =>
      intro mv h0 hall
      match tail with
      | [] =>
          obtain ⟨l, hl, hs⟩ := hall (-mv :: [x]) (List.mem_singleton.mpr rfl)
          rcases List.mem_cons.mp hl with rfl | hl
          · exact Or.inl hs
          · rcases List.mem_singleton.mp hl with rfl
            exact Or.inr ⟨l, List.mem_singleton.mpr rfl, hs⟩
      | [y] =>
          obtain ⟨l, hl, hs⟩ := hall (-mv :: [x, y]) (List.mem_singleton.mpr rfl)
          rcases List.mem_cons.mp hl with rfl | hl
          · exact Or.inl hs
          · exact Or.inr ⟨l, hl, hs⟩
      | y :: z :: rest =>
          have hchain : chainClauses mv (x :: y :: z :: rest)
              = (-mv :: x :: [mv + 1]) :: chainClauses (mv + 1) (y :: z :: rest) := rfl
          have hhd := hall (-mv :: x :: [mv + 1]) (by rw [hchain]; exact List.mem_cons_self _ _)
          obtain ⟨l, hl, hs⟩ := hhd
          rcases List.mem_cons.mp hl with rfl | hl
          · exact Or.inl hs
          rcases List.mem_cons.mp hl with rfl | hl
          · exact Or.inr ⟨l, List.mem_cons_self _ _, hs⟩
          rcases List.mem_singleton.mp hl with rfl
          have htail : ∀ d ∈ chainClauses (mv + 1) (y :: z :: rest), SatClause b d :=
            fun d hd => hall d (by rw [hchain]; exact List.mem_cons_of_mem _ hd)
          rcases ih (mv + 1) (by omega) htail with hneg | ⟨l2, hl2, hs2⟩
          · rw [satLit_neg b (by omega : (mv + 1 : Int) ≠ 0), hs] at hneg
            cases hneg
          · exact Or.inr ⟨l2, List.mem_cons_of_mem _ hl2, hs2⟩

/-- One step of `convertKbLoop` on a clause with more than three literals,
rewritten through `splitChain_eq`. -/
theorem convertKbLoop_cons_long (c0 c1 c2 c3 : Int) (crest : List Int)
    (rest : List Clause) (mv : Int) (acc : KB) :
    convertKbLoop ((c0 :: c1 :: c2 :: c3 :: crest) :: rest) mv acc
      = convertKbLoop rest ((mv + 1) + ((c2 :: c3 :: crest).length : Int) - 2)
          (saddAll acc ((c0 :: c1 :: [mv + 1]) :: chainClauses (mv + 1) (c2 :: c3 :: crest))) := by
  rw [show convertKbLoop ((c0 :: c1 :: c2 :: c3 :: crest) :: rest) mv acc
      = (let r := splitChain (mv + 1) (c2 :: c3 :: crest)
           (sadd acc (c0 :: c1 :: [mv + 1]));
         convertKbLoop rest r.2 r.1) from rfl]
  rw [splitChain_eq (c2 :: c3 :: crest) (mv + 1) _ (by simp)]
  rfl

/-- One step of `convertKbLoop` on a clause with at most three literals. -/
theorem convertKbLoop_cons_short (c : Clause) (h : c.length ≤ 3)
    (rest : List Clause) (mv : Int) (acc : KB) :
    convertKbLoop (c :: rest) mv acc = convertKbLoop rest mv (sadd acc c) := by
  match c with
  | [] => rfl
  | [x] => rfl
  | [x, y] => rfl
  | [x, y, z] => rfl
  | x :: y :: z :: w :: r => simp only [List.length_cons] at h; omega

theorem long_clause_shape {c : Clause} (h : ¬ c.length ≤ 3) :
    ∃ c0 c1 c2 c3 crest, c = c0 :: c1 :: c2 :: c3 :: crest := by
  match c with
  | [] => exact absurd (by simp) h
  | [x] => exact absurd (by simp) h
  | [x, y] => exact absurd (by simp) h
  | [x, y, z] => exact absurd (by simp) h
  | c0 :: c1 :: c2 :: c3 :: crest => exact ⟨c0, c1, c2, c3, crest, rfl⟩

end SatPy

namespace SatPy

/-- Soundness of the whole fold: any model of the converted output models
both the accumulator and every not-yet-processed input clause. -/
theorem convertKbLoop_sound (b : Int → Bool) : ∀ (kbs : List Clause) (mv : Int) (acc : KB),
    0 ≤ mv → SatKB b (convertKbLoop kbs mv acc) → SatKB b acc ∧ SatKB b kbs := by
  intro kbs
  induction kbs with
  | nil =>
      intro mv acc _ h
      exact ⟨h, fun c hc => absurd hc (List.not_mem_nil c)⟩
  | cons c rest ih =>
      intro mv acc hmv h
      by_cases hlen : c.length ≤ 3
      · rw [convertKbLoop_cons_short c hlen rest mv acc] at h
        obtain ⟨hA, hR⟩ := ih mv (sadd acc c) hmv h
        refine ⟨fun d hd => hA d (mem_sadd.mpr (Or.inl hd)), ?_⟩
        intro d hd
        rcases List.mem_cons.mp hd with hdc | hd
        · rw [hdc]
          exact hA c (mem_sadd.mpr (Or.inr rfl))
        · exact hR d hd
      · obtain ⟨c0, c1, c2, c3, crest, rfl⟩ := long_clause_shape hlen
        rw [convertKbLoop_cons_long c0 c1 c2 c3 crest rest mv acc] at h
        obtain ⟨hA, hR⟩ := ih _ _ (by simp only [List.length_cons]; push_cast; omega) h
        have hAcc : SatKB b acc :=
          fun d hd => hA d ((mem_saddAll _ acc d).mpr (Or.inl hd))
        have hAll : ∀ d ∈ ((c0 :: c1 :: [mv + 1]) :: chainClauses (mv + 1) (c2 :: c3 :: crest)),
            SatClause b d :=
          fun d hd => hA d ((mem_saddAll _ acc d).mpr (Or.inr hd))
        have hHead := hAll _ (List.mem_cons_self _ _)
        have hChain : ∀ d ∈ chainClauses (mv + 1) (c2 :: c3 :: crest), SatClause b d :=
          fun d hd => hAll d (List.mem_cons_of_mem _ hd)
        have hclause : SatClause b (c0 :: c1 :: c2 :: c3 :: crest) := by
          obtain ⟨l, hl, hs⟩ := hHead
          rcases List.mem_cons.mp hl with rfl | hl
          · exact ⟨l, List.mem_cons_self _ _, hs⟩
          rcases List.mem_cons.mp hl with rfl | hl
          · exact ⟨l, List.mem_cons_of_mem _ (List.mem_cons_self _ _), hs⟩
          rcases List.mem_singleton.mp hl with rfl
          rcases chainSound b (c2 :: c3 :: crest) (mv + 1) (by omega) hChain with
            hneg | ⟨l2, hl2, hs2⟩
          · rw [satLit_neg b (by omega : (mv + 1 : Int) ≠ 0), hs] at hneg
            cases hneg
          · exact ⟨l2, List.mem_cons_of_mem _ (List.mem_cons_of_mem _ hl2), hs2⟩
        refine ⟨hAcc, ?_⟩
        intro d hd
        rcases List.mem_cons.mp hd with hdc | hd
        · rw [hdc]
          exact hclause
        · exact hR d hd

/-- A model of the 3-SAT conversion restricts to a model of the input kb. -/
theorem convert_sound (kb : List Clause) :
    Satisfiable (convert_kb_to_3sat kb) → Satisfiable kb := by
  rintro ⟨b, hb⟩
  exact ⟨b, (convertKbLoop_sound b kb (get_max_var_from_kb kb) [] (get_max_nonneg kb) hb).2⟩

end SatPy

namespace SatPy

/-- Completeness of one chain: a model of the original clause tail (over
variables `≤ M`) extends over the fresh chain variables `≥ mv > M` so that
the chain entry variable is true and every chain clause is satisfied. -/
theorem chainComplete (a : Int → Bool) (M : Int) :
    ∀ (cl : List Int) (mv : Int), 2 ≤ cl.length → M < mv → 0 ≤ M →
    (∀ l ∈ cl, l ≠ 0 ∧ (l.natAbs : Int) ≤ M) →
    (∃ l ∈ cl, satLit a l = true) →
    ∃ b, agreeUpTo (mv - 1) a b ∧ b mv = true ∧
      ∀ d ∈ chainClauses mv cl, SatClause b d := by
  intro cl
  induction cl with
  | nil => intro mv hlen; simp at hlen
  | cons x tail ih =>
      intro mv hlen hMmv hM0 hbound hsat
      match tail with
      | [] => simp at hlen
      | [y] =>
          refine ⟨extTrue a mv, extTrue_agree a mv, extTrue_mv a mv, ?_⟩
          intro d hd
          rw [show chainClauses mv [x, y] = [-mv :: [x, y]] from rfl] at hd
          rcases List.mem_singleton.mp hd with rfl
          obtain ⟨l, hl, hs⟩ := hsat
          refine ⟨l, List.mem_cons_of_mem _ hl, ?_⟩
          rw [satLit_agree (extTrue_agree a mv) (hbound l hl).1
            (by have := (hbound l hl).2; omega)]
          exact hs
      | y :: z :: rest =>
          by_cases hx : satLit a x = true
          · refine ⟨extTrue a mv, extTrue_agree a mv, extTrue_mv a mv, ?_⟩
            intro d hd
            rw [show chainClauses mv (x :: y :: z :: rest)
                = (-mv :: x :: [mv + 1]) :: chainClauses (mv + 1) (y :: z :: rest)
                from rfl] at hd
            rcases List.mem_cons.mp hd with hdc | hd
            · rw [hdc]
              refine ⟨x, List.mem_cons_of_mem _ (List.mem_cons_self _ _), ?_⟩
              rw [satLit_agree (extTrue_agree a mv) (hbound x (List.mem_cons_self _ _)).1
                (by have := (hbound x (List.mem_cons_self _ _)).2; omega)]
              exact hx
            · refine chainFalse (extTrue a mv) (y :: z :: rest) (mv + 1) (by simp)
                (by omega) ?_ d hd
              intro j hj
              exact extTrue_high a mv (by omega)
          · have hsat2 : ∃ l ∈ (y :: z :: rest), satLit a l = true := by
              obtain ⟨l, hl, hs⟩ := hsat
              rcases List.mem_cons.mp hl with rfl | hl
              · exact absurd hs hx
              · exact ⟨l, hl, hs⟩
            obtain ⟨b0, hag0, hb0, hch0⟩ := ih (mv + 1) (by simp) (by omega) hM0
              (fun l hl => hbound l (List.mem_cons_of_mem _ hl)) hsat2
            refine ⟨setTrue b0 mv, ?_, setTrue_mv b0 mv, ?_⟩
            · intro v hv1 hv2
              unfold setTrue
              rw [if_neg (by omega : ¬ v = mv)]
              exact hag0 v hv1 (by omega)
            · intro d hd
              rw [show chainClauses mv (x :: y :: z :: rest)
                  = (-mv :: x :: [mv + 1]) :: chainClauses (mv + 1) (y :: z :: rest)
                  from rfl] at hd
              rcases List.mem_cons.mp hd with hdc | hd
              · rw [hdc]
                refine ⟨mv + 1, List.mem_cons_of_mem _ (List.mem_cons_of_mem _
                  (List.mem_singleton.mpr rfl)), ?_⟩
                unfold satLit setTrue
                rw [if_pos (by omega : (0 : Int) < mv + 1),
                  if_neg (by omega : ¬ mv + 1 = mv)]
                exact hb0
              · obtain ⟨l, hl, hs⟩ := hch0 d hd
                refine ⟨l, hl, ?_⟩
                have hlf : l ∈ (chainClauses (mv + 1) (y :: z :: rest)).flatten :=
                  List.mem_flatten.mpr ⟨d, hd, hl⟩
                rcases chainClauses_lits_sub (y :: z :: rest) (mv + 1) (by simp) l hlf with
                  hlt | ⟨j, hj, hform⟩
                · have hb := hbound l (List.mem_cons_of_mem _ hlt)
                  rw [satLit_setTrue_ne b0 mv hb.1 (by have := hb.2; omega)]
                  exact hs
                · have h0ne : l ≠ 0 ∧ (l.natAbs : Int) ≠ mv := by
                    rcases hform with hform | ⟨hform, _⟩ <;> constructor <;> omega
                  rw [satLit_setTrue_ne b0 mv h0ne.1 h0ne.2]
                  exact hs

end SatPy

namespace SatPy

/-- Completeness of the whole fold: a model of the remaining input clauses
and of the accumulator (all over variables `≤ mv`) extends over the fresh
auxiliary variables to a model of the converted output. -/
theorem convertKbLoop_complete :
    ∀ (kbs : List Clause) (a : Int → Bool) (mv : Int) (acc : KB), 0 ≤ mv →
    (∀ c ∈ kbs, ∀ l ∈ c, l ≠ 0 ∧ (l.natAbs : Int) ≤ mv) →
    (∀ c ∈ acc, ∀ l ∈ c, l ≠ 0 ∧ (l.natAbs : Int) ≤ mv) →
    SatKB a kbs → SatKB a acc →
    ∃ b, agreeUpTo mv a b ∧ SatKB b (convertKbLoop kbs mv acc) := by
  intro kbs
  induction kbs with
  | nil =>
      intro a mv acc _ _ _ _ hacc
      exact ⟨a, fun v _ _ => rfl, hacc⟩
  | cons c rest ih =>
      intro a mv acc hmv hbK hbA hK hA
      by_cases hlen : c.length ≤ 3
      · rw [convertKbLoop_cons_short c hlen rest mv acc]
        refine ih a mv (sadd acc c) hmv
          (fun d hd => hbK d (List.mem_cons_of_mem _ hd))
          (fun d hd => ?_)
          (fun d hd => hK d (List.mem_cons_of_mem _ hd))
          (fun d hd => ?_)
        · rcases mem_sadd.mp hd with hd2 | hd2
          · exact hbA d hd2
          · rw [hd2]
            exact hbK c (List.mem_cons_self _ _)
        · rcases mem_sadd.mp hd with hd2 | hd2
          · exact hA d hd2
          · rw [hd2]
            exact hK c (List.mem_cons_self _ _)
      · obtain ⟨c0, c1, c2, c3, crest, rfl⟩ := long_clause_shape hlen
        rw [convertKbLoop_cons_long c0 c1 c2 c3 crest rest mv acc]
        have hcK := hbK _ (List.mem_cons_self _ _)
        have hsatc := hK _ (List.mem_cons_self _ _)
        have hstep : ∃ a1, agreeUpTo mv a a1 ∧ SatClause a1 (c0 :: c1 :: [mv + 1]) ∧
            ∀ d ∈ chainClauses (mv + 1) (c2 :: c3 :: crest), SatClause a1 d := by
          obtain ⟨l, hl, hs⟩ := hsatc
          have hcase : (l = c0 ∨ l = c1) ∨ l ∈ (c2 :: c3 :: crest) := by
            rcases List.mem_cons.mp hl with h | h
            · exact Or.inl (Or.inl h)
            rcases List.mem_cons.mp h with h | h
            · exact Or.inl (Or.inr h)
            · exact Or.inr h
          rcases hcase with h01 | hltail
          · refine ⟨extFalse a mv, extFalse_agree a mv, ?_, ?_⟩
            · refine ⟨l, ?_, ?_⟩
              · rcases h01 with h | h
                · rw [h]
                  exact List.mem_cons_self _ _
                · rw [h]
                  exact List.mem_cons_of_mem _ (List.mem_cons_self _ _)
              · have hb := hcK l hl
                rw [satLit_agree (extFalse_agree a mv) hb.1 hb.2]
                exact hs
            · refine chainFalse (extFalse a mv) (c2 :: c3 :: crest) (mv + 1) (by simp)
                (by omega) ?_
              intro j hj
              exact extFalse_high a mv (by omega)
          · obtain ⟨b1, hag1, hb1, hch1⟩ := chainComplete a mv (c2 :: c3 :: crest) (mv + 1)
              (by simp) (by omega) hmv
              (fun p hp => hcK p (List.mem_cons_of_mem _ (List.mem_cons_of_mem _ hp)))
              ⟨l, hltail, hs⟩
            refine ⟨b1, ?_, ?_, hch1⟩
            · intro v hv1 hv2
              exact hag1 v hv1 (by omega)
            · refine ⟨mv + 1, List.mem_cons_of_mem _ (List.mem_cons_of_mem _
                (List.mem_singleton.mpr rfl)), ?_⟩
              unfold satLit
              rw [if_pos (by omega : (0 : Int) < mv + 1)]
              exact hb1
        obtain ⟨a1, hag1, hhead1, hchain1⟩ := hstep
        have hmv2 : mv + 1 ≤ (mv + 1) + ((c2 :: c3 :: crest).length : Int) - 2 := by
          simp only [List.length_cons]
          push_cast
          omega
        have hbK2 : ∀ d ∈ rest, ∀ l ∈ d, l ≠ 0 ∧
            (l.natAbs : Int) ≤ (mv + 1) + ((c2 :: c3 :: crest).length : Int) - 2 := by
          intro d hd l hl
          have h := hbK d (List.mem_cons_of_mem _ hd) l hl
          exact ⟨h.1, by omega⟩
        have hbA2 : ∀ d ∈ saddAll acc
            ((c0 :: c1 :: [mv + 1]) :: chainClauses (mv + 1) (c2 :: c3 :: crest)),
            ∀ l ∈ d, l ≠ 0 ∧
              (l.natAbs : Int) ≤ (mv + 1) + ((c2 :: c3 :: crest).length : Int) - 2 := by
          intro d hd l hl
          rcases (mem_saddAll _ acc d).mp hd with hd2 | hd2
          · have h := hbA d hd2 l hl
            exact ⟨h.1, by omega⟩
          rcases List.mem_cons.mp hd2 with hd3 | hd3
          · rw [hd3] at hl
            rcases List.mem_cons.mp hl with rfl | hl2
            · have h := hcK l (List.mem_cons_self _ _)
              exact ⟨h.1, by omega⟩
            rcases List.mem_cons.mp hl2 with rfl | hl3
            · have h := hcK l (List.mem_cons_of_mem _ (List.mem_cons_self _ _))
              exact ⟨h.1, by omega⟩
            rcases List.mem_singleton.mp hl3 with rfl
            exact ⟨by omega, by omega⟩
          · have hlf : l ∈ (chainClauses (mv + 1) (c2 :: c3 :: crest)).flatten :=
              List.mem_flatten.mpr ⟨d, hd3, hl⟩
            rcases chainClauses_lits_sub (c2 :: c3 :: crest) (mv + 1) (by simp) l hlf with
              hlt | ⟨j, hj, hform⟩
            · have h := hcK l (List.mem_cons_of_mem _ (List.mem_cons_of_mem _ hlt))
              exact ⟨h.1, by omega⟩
            · have hj2 : (j : Int) ≤ ((c2 :: c3 :: crest).length : Int) - 2 := by
                simp only [List.length_cons] at hj ⊢
                omega
              rcases hform with hform | ⟨hform, _⟩ <;> exact ⟨by omega, by omega⟩
        have hK2 : SatKB a1 rest :=
          SatKB_agree hag1 (fun d hd => hbK d (List.mem_cons_of_mem _ hd))
            (fun d hd => hK d (List.mem_cons_of_mem _ hd))
        have hA2 : SatKB a1 (saddAll acc
            ((c0 :: c1 :: [mv + 1]) :: chainClauses (mv + 1) (c2 :: c3 :: crest))) := by
          intro d hd
          rcases (mem_saddAll _ acc d).mp hd with hd2 | hd2
          · exact SatKB_agree hag1 hbA hA d hd2
          rcases List.mem_cons.mp hd2 with hd3 | hd3
          · rw [hd3]
            exact hhead1
          · exact hchain1 d hd3
        obtain ⟨b, hagb, hsatb⟩ := ih a1 ((mv + 1) + ((c2 :: c3 :: crest).length : Int) - 2)
          (saddAll acc ((c0 :: c1 :: [mv + 1]) :: chainClauses (mv + 1) (c2 :: c3 :: crest)))
          (by omega) hbK2 hbA2 hK2 hA2
        refine ⟨b, ?_, hsatb⟩
        intro v hv1 hv2
        rw [hagb v hv1 (by omega), hag1 v hv1 hv2]

end SatPy

namespace SatPy

/-- A model of the input kb extends to a model of its 3-SAT conversion. -/
theorem convert_complete (kb : List Clause) (hz : ZeroFreeKB kb) :
    Satisfiable kb → Satisfiable (convert_kb_to_3sat kb) := by
  rintro ⟨a, ha⟩
  obtain ⟨b, _, hb⟩ := convertKbLoop_complete kb a (get_max_var_from_kb kb) []
    (get_max_nonneg kb)
    (fun c hc l hl => ⟨hz l (List.mem_flatten.mpr ⟨c, hc, hl⟩), get_max_bound hc hl⟩)
    (fun c hc => absurd hc (List.not_mem_nil c))
    ha
    (fun c hc => absurd hc (List.not_mem_nil c))
  exact ⟨b, hb⟩

/-- The fold introduces no zero literal: output literals are input literals
or auxiliaries `≥ mv + 1 ≥ 1`. -/
theorem convertKbLoop_zero_free : ∀ (kbs : List Clause) (mv : Int) (acc : KB), 0 ≤ mv →
    (∀ c ∈ kbs, ∀ l ∈ c, l ≠ 0) → (∀ c ∈ acc, ∀ l ∈ c, l ≠ 0) →
    ∀ c ∈ convertKbLoop kbs mv acc, ∀ l ∈ c, l ≠ 0 := by
  intro kbs
  induction kbs with
  | nil => intro mv acc _ _ hacc; exact hacc
  | cons c rest ih =>
      intro mv acc hmv hK hA
      by_cases hlen : c.length ≤ 3
      · rw [convertKbLoop_cons_short c hlen rest mv acc]
        refine ih mv (sadd acc c) hmv (fun d hd => hK d (List.mem_cons_of_mem _ hd)) ?_
        intro d hd
        rcases mem_sadd.mp hd with hd2 | hd2
        · exact hA d hd2
        · rw [hd2]
          exact hK c (List.mem_cons_self _ _)
      · obtain ⟨c0, c1, c2, c3, crest, rfl⟩ := long_clause_shape hlen
        rw [convertKbLoop_cons_long c0 c1 c2 c3 crest rest mv acc]
        have hcK := hK _ (List.mem_cons_self _ _)
        refine ih _ _ ?_ (fun d hd => hK d (List.mem_cons_of_mem _ hd)) ?_
        · simp only [List.length_cons]
          push_cast
          omega
        · intro d hd l hl
          rcases (mem_saddAll _ acc d).mp hd with hd2 | hd2
          · exact hA d hd2 l hl
          rcases List.mem_cons.mp hd2 with hd3 | hd3
          · rw [hd3] at hl
            rcases List.mem_cons.mp hl with rfl | hl2
            · exact hcK l (List.mem_cons_self _ _)
            rcases List.mem_cons.mp hl2 with rfl | hl3
            · exact hcK l (List.mem_cons_of_mem _ (List.mem_cons_self _ _))
            rcases List.mem_singleton.mp hl3 with rfl
            omega
          · have hlf : l ∈ (chainClauses (mv + 1) (c2 :: c3 :: crest)).flatten :=
              List.mem_flatten.mpr ⟨d, hd3, hl⟩
            rcases chainClauses_lits_sub (c2 :: c3 :: crest) (mv + 1) (by simp) l hlf with
              hlt | ⟨j, hj, hform⟩
            · exact hcK l (List.mem_cons_of_mem _ (List.mem_cons_of_mem _ hlt))
            · rcases hform with hform | ⟨hform, _⟩ <;> omega

theorem convert_kb_zero_free (kb : List Clause) (hz : ZeroFreeKB kb) :
    ZeroFreeKB (convert_kb_to_3sat kb) := by
  intro l hl
  rcases List.mem_flatten.mp hl with ⟨c, hc, hlc⟩
  exact convertKbLoop_zero_free kb (get_max_var_from_kb kb) [] (get_max_nonneg kb)
    (fun d hd p hp => hz p (List.mem_flatten.mpr ⟨d, hd, hp⟩))
    (fun d hd => absurd hd (List.not_mem_nil d)) c hc l hlc

theorem kb_satisfiable_true (kb : List Clause) (hz : ZeroFreeKB kb)
    (h : Satisfiable kb) : kb_satisfiable kb = some true := by
  unfold kb_satisfiable
  obtain ⟨S, hS⟩ := dpll_complete kb hz h
  rw [hS]

theorem kb_satisfiable_false (kb : List Clause) (hz : ZeroFreeKB kb)
    (h : ¬ Satisfiable kb) : kb_satisfiable kb = some false := by
  unfold kb_satisfiable
  rcases hd : dpll kb with _ | (_ | S)
  · exact absurd hd (dpll_ne_none kb)
  · rfl
  · exact absurd (dpll_sound kb S hz hd) h

end SatPy

namespace SatPy

/-- Claim C1: for every finite knowledge base over the spec's nonzero
literals, the solver's satisfiability verdict on the 3-SAT conversion
equals its verdict on the original kb — the conversion's Tseitin-style
chains are equisatisfiable with the clauses they replace. -/
theorem C1_convert_equisatisfiable (kb : List Clause) (hz : ZeroFreeKB kb) :
    kb_satisfiable (convert_kb_to_3sat kb) = kb_satisfiable kb := by
  have hz2 : ZeroFreeKB (convert_kb_to_3sat kb) := convert_kb_zero_free kb hz
  by_cases hsat : Satisfiable kb
  · rw [kb_satisfiable_true _ hz2 (convert_complete kb hz hsat),
      kb_satisfiable_true _ hz hsat]
  · rw [kb_satisfiable_false _ hz2 (fun h => hsat (convert_sound kb h)),
      kb_satisfiable_false _ hz hsat]

/-- Witness for C1: a five-literal clause, split into three 3-clauses with
two fresh auxiliaries, gets the same verdict as the original. -/
theorem C1_convert_equisatisfiable_witness :
    kb_satisfiable (convert_kb_to_3sat [[1, 2, 3, 4, 5]]) = kb_satisfiable [[1, 2, 3, 4, 5]] :=
  C1_convert_equisatisfiable [[1, 2, 3, 4, 5]]
    (by show ∀ l ∈ ([[1, 2, 3, 4, 5]] : List Clause).flatten, l ≠ 0; decide)

end SatPy
